import Mathlib

/-!
Verification of the sermon-authoring application's core logic against its
natural-language specification.

The embedding covers:
* the presentation timer's section table and current-section lookup
  (`src/components/SermonTimer.tsx`),
* the inline-emphasis markup codec (`src/components/EditableField.tsx`),
* the saved-sermon repository client (`src/App.tsx`: `fetchSavedSermons`,
  `handleSaveSermon`), and
* the path-addressed document edit (`src/App.tsx`: `handleSermonDataChange`).

Numbers that are JavaScript floating-point values in the source (elapsed
seconds, section boundaries) are modelled as rationals (`ℚ`); all the
section boundaries produced by the source are exact integers, so no
rounding behaviour is lost.  Strings are modelled as `List Char` in the
codec so the character-level replacement loops of the source can be
expressed directly.  Several scanning loops are defined through an explicit
fuel argument (always instantiated with the input length by a wrapper);
this is only a device to obtain structural recursion that the kernel can
evaluate, and unfold lemmas below restore the natural recursion equations.
-/

/-! ## Section timer (src/components/SermonTimer.tsx) -/

/-- Source constant `TOTAL_DURATION = 40 * 60` seconds (SermonTimer.tsx line 11). -/
def totalDuration : ℚ := 40 * 60

/-- One entry of the timer's section table (SermonTimer.tsx lines 32, 35-65).
The source field `end` is a Lean keyword and is rendered here as `endTime`. -/
structure TimerSection where
  start : ℚ
  endTime : ℚ
  label : String
  title : String
  id : String
deriving DecidableEq, Repr

/-- JavaScript `a || b` for a string `a` (falsy exactly when empty).  Used for
the `point.title || ...` style fallbacks in `sectionMap`; an absent field is
modelled as the empty string. -/
def jsOr (a b : String) : String :=
  if a = "" then b else a

/-- Introduction data as read by the timer (`sermonData.introduction.title`). -/
structure IntroData where
  title : String
deriving DecidableEq, Repr

/-- One development point as read by the timer (`point.point`, `point.title`).
Fields of the outline that `sectionMap` never reads are not modelled. -/
structure DevPoint where
  point : Nat
  title : String
deriving DecidableEq, Repr

/-- Conclusion data as read by the timer (`sermonData.conclusion.title`). -/
structure ConclusionData where
  title : String
deriving DecidableEq, Repr

/-- The slice of `sermonData` that `sectionMap` reads.  The JavaScript
truthiness guards `if (sermonData.introduction)` etc. are modelled by
`Option` fields. -/
structure SermonTimerData where
  introduction : Option IntroData
  development : Option (List DevPoint)
  conclusion : Option ConclusionData

/-- The `sermonData.development.forEach((point, index) => ...)` loop of
`sectionMap` (SermonTimer.tsx lines 44-56), carrying the running index. -/
def devSections (index : Nat) : List DevPoint → List TimerSection
  | [] => []
  | point :: rest =>
    { start := (5 + (index : ℚ) * 10) * 60,
      endTime := (5 + (index : ℚ) * 10) * 60 + 10 * 60,
      label := "Ponto " ++ toString point.point,
      title := jsOr point.title ("Ponto " ++ toString point.point),
      id := "sermon-point-" ++ toString index } :: devSections (index + 1) rest

/-- Function `sectionMap` (SermonTimer.tsx lines 29-69): introduction section, then one
section per development point, then the conclusion section. -/
def sectionMap (sermonData : SermonTimerData) : List TimerSection :=
  (match sermonData.introduction with
   | some intro =>
     [{ start := 0, endTime := 5 * 60, label := "Introdução",
        title := jsOr intro.title "Introdução",
        id := "sermon-section-introduction" }]
   | none => []) ++
  (match sermonData.development with
   | some pts => devSections 0 pts
   | none => []) ++
  (match sermonData.conclusion with
   | some concl =>
     [{ start := 35 * 60, endTime := 40 * 60, label := "Conclusão",
        title := jsOr concl.title "Conclusão",
        id := "sermon-section-conclusion" }]
   | none => [])

/-- Result of `currentSectionInfo`: either the synthetic completed record
`\x7b label: 'Concluído', title: 'Sermão finalizado.' \x7d` or a section of the
table. -/
inductive CurrentSection where
  | completed
  | sec (s : TimerSection)
deriving DecidableEq, Repr

/-- Function `currentSectionInfo` (SermonTimer.tsx lines 140-151).  `none` corresponds
to the source's `undefined` (empty section table). -/
def currentSectionInfo (sm : List TimerSection) (elapsedTime : ℚ) :
    Option CurrentSection :=
  if totalDuration ≤ elapsedTime then
    some CurrentSection.completed
  else if elapsedTime ≤ 0 ∧ 0 < sm.length then
    sm.head?.map CurrentSection.sec
  else
    match sm.reverse.find? (fun section_ => decide (section_.start ≤ elapsedTime)) with
    | some s => some (CurrentSection.sec s)
    | none => sm.head?.map CurrentSection.sec

/-- The label displayed for a `currentSectionInfo` result (the completed
record carries label `Concluído`). -/
def currentLabel : Option CurrentSection → Option String
  | some CurrentSection.completed => some "Concluído"
  | some (CurrentSection.sec s) => some s.label
  | none => none

/-- Value `progressPercentage` (SermonTimer.tsx line 138): `(elapsedTime / TOTAL_DURATION) * 100`. -/
def progressPercentage (elapsedTime : ℚ) : ℚ :=
  (elapsedTime / totalDuration) * 100

/-- The clamp performed by the `tick` callback (SermonTimer.tsx lines 79-85):
an elapsed value that reached `TOTAL_DURATION` is stored as exactly
`TOTAL_DURATION`. -/
def tickElapsed (currentElapsedTime : ℚ) : ℚ :=
  if totalDuration ≤ currentElapsedTime then totalDuration else currentElapsedTime

/-- A concrete document with one introduction, three development points and a
conclusion, used by the spec's section-lookup test vector. -/
def exampleTimerData : SermonTimerData :=
  { introduction := some { title := "Abertura" },
    development := some
      [ { point := 1, title := "Primeiro" },
        { point := 2, title := "Segundo" },
        { point := 3, title := "Terceiro" } ],
    conclusion := some { title := "Encerramento" } }

/-- A small concrete section used to instantiate the universal lookup theorem. -/
def demoSection : TimerSection :=
  { start := 0, endTime := 300, label := "A", title := "tA", id := "a" }

/-- A second concrete section. -/
def demoSection2 : TimerSection :=
  { start := 300, endTime := 600, label := "B", title := "tB", id := "b" }

/-! ## Markup codec (src/components/EditableField.tsx)

Strings are modelled as `List Char`.  The JavaScript `replace` calls on
fixed patterns are modelled by a single left-to-right global-replacement
scanner over a pattern given as a list of per-character predicates; a
case-insensitive pattern character (`/i` flag) accepts both cases. -/

/-- Pattern character matching exactly `a`. -/
def chP (a : Char) : Char → Bool := fun c => c == a

/-- Pattern character matching `a` or `b` (case-insensitive regex letter). -/
def ciP (a b : Char) : Char → Bool := fun c => c == a || c == b

/-- Does the pattern match a prefix of the input? -/
def isMatchP : List (Char → Bool) → List Char → Bool
  | [], _ => true
  | _ :: _, [] => false
  | p :: ps, c :: cs => p c && isMatchP ps cs

/-- Fueled scanner for a global fixed-pattern replace (JavaScript
`str.replace(/pat/g, rep)` semantics: leftmost match, the replacement is not
rescanned, scanning resumes after the matched text).  The fuel is only a
structural-recursion device; `replaceAllP` instantiates it with the input
length, which the unfold lemmas below show is always sufficient. -/
def replF (pat : List (Char → Bool)) (rep : List Char) : Nat → List Char → List Char
  | _, [] => []
  | 0, cs => cs
  | fuel + 1, c :: cs =>
    if isMatchP pat (c :: cs) then
      rep ++ replF pat rep fuel (cs.drop (pat.length - 1))
    else
      c :: replF pat rep fuel cs

/-- Global replacement of a fixed pattern, as in `String.prototype.replace`
with a `g` regex of fixed shape. -/
def replaceAllP (pat : List (Char → Bool)) (rep : List Char) (cs : List Char) :
    List Char :=
  replF pat rep cs.length cs

/-- Pattern of `/</g`. -/
def ltPat : List (Char → Bool) := [chP '<']

/-- Pattern of `/>/g`. -/
def gtPat : List (Char → Bool) := [chP '>']

/-- Pattern of `/<strong>/gi`. -/
def strongOpenPat : List (Char → Bool) :=
  [chP '<', ciP 's' 'S', ciP 't' 'T', ciP 'r' 'R', ciP 'o' 'O', ciP 'n' 'N',
   ciP 'g' 'G', chP '>']

/-- Pattern of `/<\/strong>/gi`. -/
def strongClosePat : List (Char → Bool) :=
  [chP '<', chP '/', ciP 's' 'S', ciP 't' 'T', ciP 'r' 'R', ciP 'o' 'O',
   ciP 'n' 'N', ciP 'g' 'G', chP '>']

/-- Pattern of `/&nbsp;/g`. -/
def nbspPat : List (Char → Bool) :=
  [chP '&', chP 'n', chP 'b', chP 's', chP 'p', chP ';']

/-- Pattern of `/&lt;/g`. -/
def ampLtPat : List (Char → Bool) := [chP '&', chP 'l', chP 't', chP ';']

/-- Pattern of `/&gt;/g`. -/
def ampGtPat : List (Char → Bool) := [chP '&', chP 'g', chP 't', chP ';']

/-- The first two `replace` calls of `parseToHtml` (EditableField.tsx lines
17-18): `<` to `&lt;`, then `>` to `&gt;`. -/
def escapeLtGt (text : List Char) : List Char :=
  replaceAllP gtPat "&gt;".toList (replaceAllP ltPat "&lt;".toList text)

/-- Split at the first occurrence of the substring `**`: returns the part
before it and the part after it (both `*` consumed), or `none` when the
input has no `**` occurrence. -/
def findMarker : List Char → Option (List Char × List Char)
  | [] => none
  | [_] => none
  | c1 :: c2 :: rest =>
    if c1 = '*' ∧ c2 = '*' then some ([], rest)
    else (findMarker (c2 :: rest)).map fun p => (c1 :: p.1, p.2)

/-- Number of `**` delimiter occurrences, counted left to right without
overlap — exactly the delimiter occurrences the split regex
`/(\*\*.*?\*\*)/g` can pair up. -/
def countMarkers : List Char → Nat
  | [] => 0
  | [_] => 0
  | c1 :: c2 :: rest =>
    if c1 = '*' ∧ c2 = '*' then countMarkers rest + 1
    else countMarkers (c2 :: rest)

/-- The spec's notion of balanced emphasis delimiters: the `**` occurrences
pair up, i.e. their count is even. -/
def boldBalanced (cs : List Char) : Prop := countMarkers cs % 2 = 0

instance (cs : List Char) : Decidable (boldBalanced cs) :=
  inferInstanceAs (Decidable (countMarkers cs % 2 = 0))

/-- The literal `<strong>`. -/
def strongOpen : List Char := "<strong>".toList

/-- The literal `</strong>`. -/
def strongClose : List Char := "</strong>".toList

/-- JavaScript `part.slice(2, -2)` for the parts this codec applies it to
(length ≥ 2). -/
def jsSliceInner (cs : List Char) : List Char :=
  (cs.drop 2).take (cs.length - 4)

/-- JavaScript `part.startsWith('**') && part.endsWith('**')`. -/
def boldWrapped (cs : List Char) : Bool :=
  ['*', '*'].isPrefixOf cs && ['*', '*'].isSuffixOf cs

/-- Is the character a JavaScript line terminator?  The regex `.` (without
the `s` flag) matches every character except these four. -/
def isLineTerm (c : Char) : Bool :=
  c = '\n' ∨ c = '\r' ∨ c = '\u2028' ∨ c = '\u2029'

/-- Attempt of the lazy `.*?\*\*` tail of the split regex at the current
position: consume characters one at a time — failing on a line terminator,
which `.` does not match — until a closing `**`; returns the consumed inner
text and the remainder after the closing `**`, or `none` when a line
terminator or the end of input comes first. -/
def findCloser : List Char → Option (List Char × List Char)
  | [] => none
  | [_] => none
  | c1 :: c2 :: rest =>
    if c1 = '*' ∧ c2 = '*' then some ([], rest)
    else if isLineTerm c1 then none
    else (findCloser (c2 :: rest)).map fun p => (c1 :: p.1, p.2)

/-- Fueled search for the leftmost match of `/(\*\*.*?\*\*)/g`: at each
position, a `**` opener is tried with `findCloser` for its lazily matched
closer; on failure — just as the regex engine retries from the next
character — the scan advances by one character.  Returns the text before the
match, the inner text, and the remainder after the match.  The fuel is a
structural-recursion device; `jsScan` supplies the input length, which is
always sufficient. -/
def jsScanF : Nat → List Char → Option (List Char × List Char × List Char)
  | _, [] => none
  | _, [_] => none
  | 0, _ => none
  | fuel + 1, c1 :: c2 :: rest =>
    if c1 = '*' ∧ c2 = '*' then
      match findCloser rest with
      | some (inner, after) => some ([], inner, after)
      | none =>
        (jsScanF fuel (c2 :: rest)).map fun p => (c1 :: p.1, p.2.1, p.2.2)
    else (jsScanF fuel (c2 :: rest)).map fun p => (c1 :: p.1, p.2.1, p.2.2)

/-- Leftmost regex match with sufficient fuel. -/
def jsScan (cs : List Char) : Option (List Char × List Char × List Char) :=
  jsScanF cs.length cs

/-- The `map` of the split (EditableField.tsx lines 20-24) applied to a
non-captured part: a part that both begins and ends with `**` — possible for
unmatched residues such as `**`, `***`, or `**x\ny**` — is still wrapped
into an emphasis element via `slice(2, -2)`; every other part is kept
literally. -/
def mapPart (p : List Char) : List Char :=
  if boldWrapped p then strongOpen ++ jsSliceInner p ++ strongClose else p

/-- Fueled version of the `split(/(\*\*.*?\*\*)/g).map(...).join('')` step of
`parseToHtml` (EditableField.tsx lines 19-25).  Matches are found left to
right by `jsScan` (the `.` of the regex does not cross line terminators);
each captured part `**inner**` becomes `<strong>inner</strong>` (it always
begins and ends with `**`, and `slice(2, -2)` yields exactly `inner`), and
every non-captured part goes through the `map`'s fallback check
(`mapPart`). -/
def parseBoldF : Nat → List Char → List Char
  | 0, cs => cs
  | fuel + 1, cs =>
    match jsScan cs with
    | none => mapPart cs
    | some (pre, inner, after) =>
      mapPart pre ++ strongOpen ++ inner ++ strongClose ++ parseBoldF fuel after

/-- The bold-splitting step with sufficient fuel. -/
def parseBold (cs : List Char) : List Char := parseBoldF cs.length cs

/-- Function `parseToHtml` (EditableField.tsx lines 14-26): escape `<` and `>`, then
replace each paired `**...**` span by a `<strong>` element.  The
`typeof text !== 'string'` guard is vacuous in the typed model. -/
def parseToHtml (text : List Char) : List Char :=
  parseBold (escapeLtGt text)

/-- First maximal line-terminator-free segment of the input. -/
def firstSeg : List Char → List Char
  | [] => []
  | c :: cs => if isLineTerm c then [] else c :: firstSeg cs

/-- Remainder after the first line terminator, or `none` when there is
none. -/
def afterSeg : List Char → Option (List Char)
  | [] => none
  | c :: cs => if isLineTerm c then some cs else afterSeg cs

/-- The line-terminator-delimited segments of the input, in order. -/
def lineSegments : List Char → List (List Char)
  | [] => [[]]
  | c :: cs =>
    if isLineTerm c then [] :: lineSegments cs
    else
      match lineSegments cs with
      | s :: rest => (c :: s) :: rest
      | [] => [[c]]

/-- Emphasis delimiters balanced within every line: each line-terminator
delimited segment contains an even number of `**` occurrences, so that no
span would have to cross a line break (which the regex dot cannot do). -/
def linesBalanced (cs : List Char) : Prop :=
  ∀ L ∈ lineSegments cs, countMarkers L % 2 = 0

instance (cs : List Char) : Decidable (linesBalanced cs) :=
  inferInstanceAs (Decidable (∀ L ∈ lineSegments cs, countMarkers L % 2 = 0))

/-- Is the character one the JavaScript `\s` class matches?  (The common
ASCII whitespace characters plus no-break space; the more exotic Unicode
space classes are not modelled.) -/
def isJsSpace (c : Char) : Bool :=
  c = ' ' ∨ c = '\t' ∨ c = '\n' ∨ c = '\r' ∨ c = '\x0b' ∨ c = '\x0c' ∨ c = '\xa0'

/-- After `<br` was recognised: consume `\s*`, then an optional `/`, then `>`;
returns the remainder after the match, or `none` if the regex does not match
here. -/
def brTail : List Char → Option (List Char)
  | [] => none
  | c :: cs =>
    if isJsSpace c then brTail cs
    else if c = '/' then
      match cs with
      | '>' :: r => some r
      | _ => none
    else if c = '>' then some cs
    else none

/-- Try to match `br\s*\/?>` (the part of `/<br\s*\/?>/gi` after the `<`). -/
def brMatch : List Char → Option (List Char)
  | b :: r :: rest =>
    if (b = 'b' ∨ b = 'B') ∧ (r = 'r' ∨ r = 'R') then brTail rest else none
  | _ => none

/-- Fueled global replacement of `/<br\s*\/?>/gi` by a newline
(EditableField.tsx line 35). -/
def replaceBrF : Nat → List Char → List Char
  | _, [] => []
  | 0, cs => cs
  | fuel + 1, c :: cs =>
    if c = '<' then
      match brMatch cs with
      | some after => '\n' :: replaceBrF fuel after
      | none => c :: replaceBrF fuel cs
    else c :: replaceBrF fuel cs

/-- The `<br>`-to-newline replacement with sufficient fuel. -/
def replaceBr (cs : List Char) : List Char := replaceBrF cs.length cs

/-- Split after the first `>` of the input, or `none` when there is none. -/
def findGt : List Char → Option (List Char)
  | [] => none
  | c :: cs => if c = '>' then some cs else findGt cs

/-- Fueled global replacement of `/<[^>]*>/g` by the empty string
(EditableField.tsx line 36): from a `<`, the match extends to the next `>`;
a `<` with no later `>` stays literal. -/
def stripTagsF : Nat → List Char → List Char
  | _, [] => []
  | 0, cs => cs
  | fuel + 1, c :: cs =>
    if c = '<' then
      match findGt cs with
      | some after => stripTagsF fuel after
      | none => c :: stripTagsF fuel cs
    else c :: stripTagsF fuel cs

/-- Tag stripping with sufficient fuel. -/
def stripTags (cs : List Char) : List Char := stripTagsF cs.length cs

/-- Function `parseToText` (EditableField.tsx lines 28-37): the source's chain of
`replace` calls in order — `<strong>` and `</strong>` (case-insensitive) to
`**`, `&nbsp;` to a space, `&lt;`/`&gt;` unescaped, `<br...>` to newline,
remaining tags stripped. -/
def parseToText (html : List Char) : List Char :=
  stripTags (replaceBr (replaceAllP ampGtPat ">".toList
    (replaceAllP ampLtPat "<".toList
      (replaceAllP nbspPat " ".toList
        (replaceAllP strongClosePat "**".toList
          (replaceAllP strongOpenPat "**".toList html))))))

/-- Character-wise description of the two escaping passes of `parseToHtml`:
`<` becomes `&lt;`, `>` becomes `&gt;`, everything else is kept.  Proved
below to agree with the pass-based `escapeLtGt`. -/
def escChar (c : Char) : List Char :=
  if c = '<' then "&lt;".toList
  else if c = '>' then "&gt;".toList
  else [c]

/-- No markup-significant character: the two characters the encoder escapes
and the ampersand, which the decoder's entity rewriting makes significant. -/
def cleanText (cs : List Char) : Prop :=
  ∀ c ∈ cs, c ≠ '<' ∧ c ≠ '>' ∧ c ≠ '&'

instance (cs : List Char) : Decidable (cleanText cs) :=
  inferInstanceAs (Decidable (∀ c ∈ cs, c ≠ '<' ∧ c ≠ '>' ∧ c ≠ '&'))

/-! ## Sermon document model (src/App.tsx)

`App.tsx` manipulates the sermon outline as an untyped JSON tree; the model
mirrors that with a JSON value type and path-addressed access. -/

/-- JSON-like value: the untyped `sermonData` trees of `App.tsx`.  The
numbers occurring in the sermon JSON are integers (`point` fields,
`Date.now()` ids), so a JSON number is modelled as `Int`. -/
inductive JValue where
  | null
  | str (s : String)
  | num (n : Int)
  | bool (b : Bool)
  | arr (elems : List JValue)
  | obj (fields : List (String × JValue))

/-- One segment of `handleSermonDataChange`'s `path : (string | number)[]`. -/
inductive PathSeg where
  | key (k : String)
  | idx (i : Nat)
deriving DecidableEq

/-- JavaScript property read `o[k]` on an object literal (first binding
wins; the trees built from parsed JSON have unique keys). -/
def lookupField : List (String × JValue) → String → Option JValue
  | [], _ => none
  | (k', v) :: rest, k => if k' = k then some v else lookupField rest k

/-- JavaScript property write `o[k] = v` on an object literal: replaces the
binding if present, otherwise appends it. -/
def setField : List (String × JValue) → String → JValue → List (String × JValue)
  | [], k, v => [(k, v)]
  | (k', v') :: rest, k, v =>
    if k' = k then (k, v) :: rest else (k', v') :: setField rest k v

/-- Read the value at a path: object segments go through properties, index
segments through array elements; anything else fails to resolve. -/
def getPath : JValue → List PathSeg → Option JValue
  | v, [] => some v
  | JValue.obj fs, PathSeg.key k :: rest =>
    match lookupField fs k with
    | some child => getPath child rest
    | none => none
  | JValue.arr xs, PathSeg.idx i :: rest =>
    match xs[i]? with
    | some child => getPath child rest
    | none => none
  | _, _ :: _ => none

/-- The state updater inside `handleSermonDataChange` (App.tsx lines
302-328): deep-copy the document (`JSON.parse(JSON.stringify(...))`), walk
the path to the parent of the target, and assign the new string at the final
segment.  The deep copy plus in-place mutation of the copy amounts to this
functional update.  A path whose intermediate segments do not resolve yields
`none` (there the source would fault on an undefined intermediate, see spec
§9); a final array index out of range also yields `none` (the source would
extend the array, a case no caller exercises). -/
def setPath : JValue → List PathSeg → String → Option JValue
  | _, [], _ => none
  | JValue.obj fs, [PathSeg.key k], value =>
    some (JValue.obj (setField fs k (JValue.str value)))
  | JValue.arr xs, [PathSeg.idx i], value =>
    if i < xs.length then some (JValue.arr (xs.set i (JValue.str value)))
    else none
  | JValue.obj fs, PathSeg.key k :: seg :: rest, value =>
    match lookupField fs k with
    | some child =>
      (setPath child (seg :: rest) value).map fun c =>
        JValue.obj (setField fs k c)
    | none => none
  | JValue.arr xs, PathSeg.idx i :: seg :: rest, value =>
    match xs[i]? with
    | some child =>
      (setPath child (seg :: rest) value).map fun c =>
        JValue.arr (xs.set i c)
    | none => none
  | _, _ :: _, _ => none

/-! ## Saved-sermon repository client (src/App.tsx) -/

/-- A saved sermon record (App.tsx lines 496-501): `id` is `Date.now()`,
`data` and `presentationData` are the untyped outline trees
(`presentationData` may be JSON `null`). -/
structure SavedSermon where
  id : Int
  passage : String
  data : JValue
  presentationData : JValue

/-- Outcome of the `PUT` issued by `handleSaveSermon`: an ok response, a
non-ok HTTP status with its status text, or a thrown network error. -/
inductive PutOutcome where
  | ok
  | httpError (status : Nat) (statusText : String)
  | netError (msg : String)

/-- The component state read and written by `handleSaveSermon`. -/
structure SaveState where
  savedSermons : List SavedSermon
  isSaving : Bool
  saveError : Option String
  saveSuccess : Bool

/-- The error message thrown for a non-ok save response (App.tsx lines
525-531). -/
def saveErrorMessage (status : Nat) (statusText : String) : String :=
  if status = 401 then
    "Erro de autenticação: API Key inválida ou sem permissão de escrita"
  else if status = 404 then
    "Bin não encontrado. Verifique se o Bin ID está correto"
  else
    "Erro HTTP " ++ toString status ++ ": " ++ statusText

/-- Function `handleSaveSermon` (App.tsx lines 493-542) as a state transition given
the network outcome: the new record is appended optimistically; on any
failure the list is rolled back to the pre-optimistic snapshot and the error
message is surfaced; on success the success flag is set (its 2-second reset
timer is outside this model, as is the early return when no sermon is
loaded). -/
def handleSaveSermon (st : SaveState) (newSermon : SavedSermon)
    (outcome : PutOutcome) : SaveState :=
  let previousSermons := st.savedSermons
  let updatedSermons := st.savedSermons ++ [newSermon]
  match outcome with
  | PutOutcome.ok =>
    { savedSermons := updatedSermons, isSaving := false, saveError := none,
      saveSuccess := true }
  | PutOutcome.httpError status statusText =>
    { savedSermons := previousSermons, isSaving := false,
      saveError := some (saveErrorMessage status statusText),
      saveSuccess := false }
  | PutOutcome.netError msg =>
    { savedSermons := previousSermons, isSaving := false,
      saveError := some msg, saveSuccess := false }

/-- Outcome of the `GET` issued by `fetchSavedSermons`: a success response
whose `record` field is an array of saved sermons (`none` models a missing
or non-array `record`, which the source coerces to `[]`), a non-ok HTTP
status, or a thrown network error. -/
inductive FetchOutcome where
  | success (record : Option (List SavedSermon))
  | httpError (status : Nat)
  | netError (msg : String)

/-- The component state read and written by `fetchSavedSermons`. -/
structure FetchState where
  savedSermons : List SavedSermon
  loadSermonsError : Option String
  isLoadingSermons : Bool

/-- Function `fetchSavedSermons` (App.tsx lines 163-186): a 404 is treated as an
empty collection with no error; any other non-ok status throws
"Não foi possível buscar os sermões salvos.", which the catch surfaces with
an emptied list; a thrown network error is surfaced the same way; a success
response stores the fetched records. -/
def fetchSavedSermons (outcome : FetchOutcome) : FetchState :=
  match outcome with
  | FetchOutcome.success record =>
    { savedSermons := record.getD [], loadSermonsError := none,
      isLoadingSermons := false }
  | FetchOutcome.httpError status =>
    if status = 404 then
      { savedSermons := [], loadSermonsError := none,
        isLoadingSermons := false }
    else
      { savedSermons := [],
        loadSermonsError := some "Não foi possível buscar os sermões salvos.",
        isLoadingSermons := false }
  | FetchOutcome.netError msg =>
    { savedSermons := [], loadSermonsError := some msg,
      isLoadingSermons := false }

/-- A concrete two-point document used to instantiate the edit theorem at
path `['development', 1, 'argument']`. -/
def demoDoc : JValue :=
  JValue.obj
    [("title", JValue.str "T"),
     ("development", JValue.arr
       [JValue.obj [("point", JValue.num 1), ("argument", JValue.str "a0")],
        JValue.obj [("point", JValue.num 2), ("argument", JValue.str "a1")]])]

/-- The result of editing `demoDoc` at `['development', 1, 'argument']` to `"novo"`. -/
def demoDocEdited : JValue :=
  JValue.obj
    [("title", JValue.str "T"),
     ("development", JValue.arr
       [JValue.obj [("point", JValue.num 1), ("argument", JValue.str "a0")],
        JValue.obj [("point", JValue.num 2), ("argument", JValue.str "novo")]])]

/-- A concrete saved sermon used to instantiate the universal theorems. -/
def demoSermon : SavedSermon :=
  { id := 1, passage := "Gênesis 19", data := JValue.null,
    presentationData := JValue.null }

/-! ## Theorems: section timer -/

lemma getLast?_cons_eq_or (a : α) (xs : List α) :
    (a :: xs).getLast? = xs.getLast?.or (some a) := by
  cases xs with
  | nil => rfl
  | cons b t =>
    rw [List.getLast?_cons_cons, Option.or_of_isSome]
    rw [List.getLast?_isSome]
    exact List.cons_ne_nil b t

/-- Searching the reversed list for the first hit is the same as taking the
last element of the filtered list: this is the bridge between the source's
`slice().reverse().find(...)` idiom and the spec's phrase "the last section in
list order whose start is ≤ elapsed". -/
lemma find?_reverse_eq_getLast?_filter (p : α → Bool) (l : List α) :
    l.reverse.find? p = (l.filter p).getLast? := by
  induction l with
  | nil => rfl
  | cons a l ih =>
    rw [List.reverse_cons, List.find?_append, ih, List.filter_cons]
    by_cases h : p a
    · rw [if_pos h, getLast?_cons_eq_or]
      have : List.find? p [a] = some a := by simp [List.find?, h]
      rw [this]
    · rw [if_neg h]
      have : List.find? p [a] = none := by simp [List.find?, h]
      rw [this, Option.or_none]

/-- C1: the current-section lookup returns (a) the synthetic completed record
once elapsed has reached the total duration, (b) the first section when
elapsed is 0 and sections exist, and (c) otherwise the last section in list
order whose start is ≤ elapsed, whenever such a section exists. -/
theorem timer_currentSection_lookup (sm : List TimerSection) (e : ℚ) :
    (totalDuration ≤ e → currentSectionInfo sm e = some CurrentSection.completed) ∧
    (e = 0 → ∀ s0 tl, sm = s0 :: tl →
      currentSectionInfo sm e = some (CurrentSection.sec s0)) ∧
    (0 < e → e < totalDuration →
      ∀ s, (sm.filter fun t => decide (t.start ≤ e)).getLast? = some s →
        currentSectionInfo sm e = some (CurrentSection.sec s)) := by
  refine ⟨?_, ?_, ?_⟩
  · intro h
    rw [currentSectionInfo, if_pos h]
  · rintro rfl s0 tl rfl
    rw [currentSectionInfo, if_neg (by norm_num [totalDuration]),
      if_pos ⟨le_refl 0, by simp⟩]
    rfl
  · intro h0 hlt s hs
    rw [currentSectionInfo, if_neg (not_le.mpr hlt),
      if_neg (fun hc => absurd hc.1 (not_le.mpr h0)),
      find?_reverse_eq_getLast?_filter, hs]

lemma one_lt_totalDuration : (1 : ℚ) < totalDuration := by
  norm_num [totalDuration]

lemma demoSection_filter_eval :
    (([demoSection] : List TimerSection).filter
      fun t => decide (t.start ≤ (1 : ℚ))).getLast? = some demoSection := by
  simp [List.filter, demoSection, zero_le_one]

theorem timer_currentSection_lookup_witness :
    currentSectionInfo [] totalDuration = some CurrentSection.completed ∧
    currentSectionInfo [demoSection, demoSection2] 0 =
      some (CurrentSection.sec demoSection) ∧
    currentSectionInfo [demoSection] 1 = some (CurrentSection.sec demoSection) :=
  ⟨(timer_currentSection_lookup [] totalDuration).1 (le_refl _),
   (timer_currentSection_lookup [demoSection, demoSection2] 0).2.1 rfl
     demoSection [demoSection2] rfl,
   (timer_currentSection_lookup [demoSection] 1).2.2 one_pos
     one_lt_totalDuration demoSection demoSection_filter_eval⟩

/-- C2 counterexample: at elapsed = 2399 s the code reports the conclusion
section ("Conclusão", whose start 2100 ≤ 2399 makes it the last section in
list order with start ≤ elapsed), not "Ponto 3" as the claim states. -/
theorem sectionLookup_2399_counterexample :
    currentLabel (currentSectionInfo (sectionMap exampleTimerData) 2399) =
      some "Conclusão" ∧
    (some "Conclusão" : Option String) ≠ some "Ponto 3" := by
  constructor
  · norm_num [currentSectionInfo, sectionMap, exampleTimerData, devSections,
      totalDuration, currentLabel, jsOr, List.find?]
  · decide

/-- C2 (amended): the section-lookup test vector with the 2399 s entry
corrected to the conclusion section. -/
theorem sectionLookup_vectors :
    currentLabel (currentSectionInfo (sectionMap exampleTimerData) 0) =
      some "Introdução" ∧
    currentLabel (currentSectionInfo (sectionMap exampleTimerData) 301) =
      some "Ponto 1" ∧
    currentLabel (currentSectionInfo (sectionMap exampleTimerData) 2399) =
      some "Conclusão" ∧
    currentLabel (currentSectionInfo (sectionMap exampleTimerData) 2100) =
      some "Conclusão" ∧
    currentSectionInfo (sectionMap exampleTimerData) 2400 =
      some CurrentSection.completed := by
  refine ⟨?_, ?_, ?_, ?_, ?_⟩ <;>
    norm_num [currentSectionInfo, sectionMap, exampleTimerData, devSections,
      totalDuration, currentLabel, jsOr, List.find?]
  decide

lemma devSections_eq_enumFrom (k : Nat) (pts : List DevPoint) :
    devSections k pts = (List.enumFrom k pts).map fun ip =>
      { start := (5 + (ip.1 : ℚ) * 10) * 60,
        endTime := (5 + (ip.1 : ℚ) * 10) * 60 + 10 * 60,
        label := "Ponto " ++ toString ip.2.point,
        title := jsOr ip.2.title ("Ponto " ++ toString ip.2.point),
        id := "sermon-point-" ++ toString ip.1 } := by
  induction pts generalizing k with
  | nil => rfl
  | cons p rest ih => simp [devSections, List.enumFrom, ih]

/-- C4: for a document with introduction, development points and conclusion,
the derived section table is the introduction on [0, 300], the development
point of index i on [(5 + 10 i) * 60, (5 + 10 i) * 60 + 600] in document
order, and the conclusion on [2100, 2400]. -/
theorem timer_allocation (doc : SermonTimerData) (intro : IntroData)
    (pts : List DevPoint) (concl : ConclusionData)
    (hI : doc.introduction = some intro) (hD : doc.development = some pts)
    (hC : doc.conclusion = some concl) :
    sectionMap doc =
      { start := 0, endTime := 300, label := "Introdução",
        title := jsOr intro.title "Introdução",
        id := "sermon-section-introduction" } ::
      ((pts.enum.map fun ip =>
        { start := (5 + 10 * (ip.1 : ℚ)) * 60,
          endTime := (5 + 10 * (ip.1 : ℚ)) * 60 + 600,
          label := "Ponto " ++ toString ip.2.point,
          title := jsOr ip.2.title ("Ponto " ++ toString ip.2.point),
          id := "sermon-point-" ++ toString ip.1 }) ++
      [{ start := 2100, endTime := 2400, label := "Conclusão",
         title := jsOr concl.title "Conclusão",
         id := "sermon-section-conclusion" }]) := by
  rw [sectionMap, hI, hD, hC]
  dsimp only
  rw [devSections_eq_enumFrom, List.enum]
  simp only [List.cons_append, List.nil_append, List.cons.injEq]
  refine ⟨by norm_num, ?_⟩
  congr 1
  · apply List.map_congr_left
    intro ip _
    simp only [TimerSection.mk.injEq]
    refine ⟨by ring, by ring, trivial, trivial, trivial⟩
  · norm_num

theorem timer_allocation_witness :
    sectionMap exampleTimerData =
      { start := 0, endTime := 300, label := "Introdução",
        title := jsOr (IntroData.mk "Abertura").title "Introdução",
        id := "sermon-section-introduction" } ::
      ((([ DevPoint.mk 1 "Primeiro", DevPoint.mk 2 "Segundo",
           DevPoint.mk 3 "Terceiro" ].enum.map) fun ip =>
        { start := (5 + 10 * (ip.1 : ℚ)) * 60,
          endTime := (5 + 10 * (ip.1 : ℚ)) * 60 + 600,
          label := "Ponto " ++ toString ip.2.point,
          title := jsOr ip.2.title ("Ponto " ++ toString ip.2.point),
          id := "sermon-point-" ++ toString ip.1 }) ++
      [{ start := 2100, endTime := 2400, label := "Conclusão",
         title := jsOr (ConclusionData.mk "Encerramento").title "Conclusão",
         id := "sermon-section-conclusion" }]) :=
  timer_allocation exampleTimerData (IntroData.mk "Abertura")
    [DevPoint.mk 1 "Primeiro", DevPoint.mk 2 "Segundo", DevPoint.mk 3 "Terceiro"]
    (ConclusionData.mk "Encerramento") rfl rfl rfl

lemma zero_le_q1200 : (0 : ℚ) ≤ 1200 := by norm_num

/-- C8: the progress percentage is `100 * elapsed / totalDuration`; for
elapsed kept in [0, totalDuration] (which the tick clamp enforces) it lies in
[0, 100], and elapsed = 1200 of the 2400 s total gives exactly 50 %. -/
theorem progress_percentage_spec (e : ℚ) (h0 : 0 ≤ e) :
    progressPercentage e = 100 * e / totalDuration ∧
    (e ≤ totalDuration → 0 ≤ progressPercentage e ∧ progressPercentage e ≤ 100) ∧
    (0 ≤ progressPercentage (tickElapsed e) ∧
      progressPercentage (tickElapsed e) ≤ 100) ∧
    progressPercentage 1200 = 50 := by
  have hval : ∀ x : ℚ, progressPercentage x = x * (1 / 24) := by
    intro x
    rw [progressPercentage, totalDuration]
    ring
  have hbounds : ∀ x : ℚ, 0 ≤ x → x ≤ totalDuration →
      0 ≤ progressPercentage x ∧ progressPercentage x ≤ 100 := by
    intro x hx0 hx1
    rw [totalDuration] at hx1
    constructor
    · rw [hval]; positivity
    · rw [hval]; norm_num; linarith
  refine ⟨?_, fun h1 => hbounds e h0 h1, ?_, ?_⟩
  · rw [progressPercentage, totalDuration]; ring
  · rw [tickElapsed]
    by_cases h : totalDuration ≤ e
    · rw [if_pos h]
      exact hbounds totalDuration (by norm_num [totalDuration]) (le_refl _)
    · rw [if_neg h]
      exact hbounds e h0 (le_of_not_le h)
  · rw [hval]; norm_num

theorem progress_percentage_spec_witness :
    progressPercentage 1200 = 100 * 1200 / totalDuration :=
  (progress_percentage_spec 1200 zero_le_q1200).1

/-! ## Theorems: markup codec -/

lemma replF_eq_of_le (pat : List (Char → Bool)) (rep : List Char) :
    ∀ (f1 f2 : Nat) (cs : List Char), cs.length ≤ f1 → cs.length ≤ f2 →
      replF pat rep f1 cs = replF pat rep f2 cs := by
  intro f1
  induction f1 with
  | zero =>
    intro f2 cs h1 _
    have hnil : cs = [] := List.eq_nil_of_length_eq_zero (Nat.le_zero.mp h1)
    subst hnil
    cases f2 <;> rfl
  | succ a ih =>
    intro f2 cs h1 h2
    cases cs with
    | nil => cases f2 <;> rfl
    | cons c cs' =>
      cases f2 with
      | zero => simp at h2
      | succ b =>
        simp only [List.length_cons, Nat.succ_le_succ_iff] at h1 h2
        simp only [replF]
        by_cases hm : isMatchP pat (c :: cs') = true
        · rw [if_pos hm, if_pos hm]
          congr 1
          apply ih
          · rw [List.length_drop]; omega
          · rw [List.length_drop]; omega
        · rw [if_neg hm, if_neg hm]
          congr 1
          exact ih b cs' h1 h2

lemma replaceAllP_cons (pat : List (Char → Bool)) (rep : List Char)
    (c : Char) (cs : List Char) :
    replaceAllP pat rep (c :: cs) =
      if isMatchP pat (c :: cs) then
        rep ++ replaceAllP pat rep (cs.drop (pat.length - 1))
      else c :: replaceAllP pat rep cs := by
  rw [replaceAllP, List.length_cons]
  simp only [replF]
  by_cases hm : isMatchP pat (c :: cs) = true
  · rw [if_pos hm, if_pos hm]
    congr 1
    rw [replaceAllP]
    apply replF_eq_of_le <;> rw [List.length_drop] <;> omega
  · rw [if_neg hm, if_neg hm]
    congr 1

lemma isMatchP_cons_false (p0 : Char → Bool) (ps : List (Char → Bool))
    (c : Char) (cs : List Char) (h : p0 c = false) :
    isMatchP (p0 :: ps) (c :: cs) = false := by
  simp [isMatchP, h]

lemma replaceAllP_cons_skip {p0 : Char → Bool} {ps : List (Char → Bool)}
    {rep : List Char} {c : Char} {cs : List Char} (h : p0 c = false) :
    replaceAllP (p0 :: ps) rep (c :: cs) = c :: replaceAllP (p0 :: ps) rep cs := by
  rw [replaceAllP_cons, isMatchP_cons_false p0 ps c cs h]
  simp

lemma replaceAllP_append_skip (p0 : Char → Bool) (ps : List (Char → Bool))
    (rep : List Char) :
    ∀ l t : List Char, (∀ c ∈ l, p0 c = false) →
      replaceAllP (p0 :: ps) rep (l ++ t) = l ++ replaceAllP (p0 :: ps) rep t := by
  intro l
  induction l with
  | nil => intro t _; simp
  | cons a l' ih =>
    intro t h
    rw [List.cons_append, replaceAllP_cons_skip (h a (by simp)),
      ih t (fun c hc => h c (by simp [hc]))]
    rfl

lemma replaceAllP_id (p0 : Char → Bool) (ps : List (Char → Bool))
    (rep : List Char) (l : List Char) (h : ∀ c ∈ l, p0 c = false) :
    replaceAllP (p0 :: ps) rep l = l := by
  have h2 := replaceAllP_append_skip p0 ps rep l [] h
  have h3 : replaceAllP (p0 :: ps) rep ([] : List Char) = [] := rfl
  rw [h3] at h2
  simpa using h2

lemma replaceAllP_fire (pat : List (Char → Bool)) (rep : List Char)
    (lit t : List Char) (hm : isMatchP pat (lit ++ t) = true)
    (hlen : lit.length = pat.length) (hne : lit ≠ []) :
    replaceAllP pat rep (lit ++ t) = rep ++ replaceAllP pat rep t := by
  cases lit with
  | nil => exact absurd rfl hne
  | cons c lit' =>
    rw [List.cons_append] at hm ⊢
    rw [replaceAllP_cons, if_pos hm]
    have hl : pat.length - 1 = lit'.length := by
      rw [← hlen, List.length_cons]
      omega
    rw [hl, List.drop_left]

lemma findMarker_decomp :
    ∀ cs b r : List Char, findMarker cs = some (b, r) →
      cs = b ++ '*' :: '*' :: r := by
  intro cs
  induction cs with
  | nil => intro b r h; simp [findMarker] at h
  | cons c1 tl ih =>
    cases tl with
    | nil => intro b r h; simp [findMarker] at h
    | cons c2 rest =>
      intro b r h
      rw [findMarker] at h
      by_cases hstar : c1 = '*' ∧ c2 = '*'
      · rw [if_pos hstar] at h
        obtain ⟨rfl, rfl⟩ : ([] : List Char) = b ∧ rest = r := by
          simpa using h
        simp [hstar.1, hstar.2]
      · rw [if_neg hstar] at h
        cases hm : findMarker (c2 :: rest) with
        | none => rw [hm] at h; simp at h
        | some p =>
          rw [hm] at h
          obtain ⟨hb, hr⟩ : c1 :: p.1 = b ∧ p.2 = r := by simpa using h
          have := ih p.1 p.2 (by rw [hm])
          rw [← hb, ← hr, List.cons_append, ← this]

lemma countMarkers_of_findMarker :
    ∀ cs b r : List Char, findMarker cs = some (b, r) →
      countMarkers cs = countMarkers r + 1 := by
  intro cs
  induction cs with
  | nil => intro b r h; simp [findMarker] at h
  | cons c1 tl ih =>
    cases tl with
    | nil => intro b r h; simp [findMarker] at h
    | cons c2 rest =>
      intro b r h
      rw [findMarker] at h
      rw [countMarkers]
      by_cases hstar : c1 = '*' ∧ c2 = '*'
      · rw [if_pos hstar] at h
        obtain ⟨rfl, rfl⟩ : ([] : List Char) = b ∧ rest = r := by simpa using h
        rw [if_pos hstar]
      · rw [if_neg hstar] at h
        rw [if_neg hstar]
        cases hm : findMarker (c2 :: rest) with
        | none => rw [hm] at h; simp at h
        | some p =>
          rw [hm] at h
          obtain ⟨hb, hr⟩ : c1 :: p.1 = b ∧ p.2 = r := by simpa using h
          rw [← hr]
          exact ih p.1 p.2 (by rw [hm])

lemma countMarkers_zero_of_findMarker_none :
    ∀ cs : List Char, findMarker cs = none → countMarkers cs = 0 := by
  intro cs
  induction cs with
  | nil => intro _; rfl
  | cons c1 tl ih =>
    cases tl with
    | nil => intro _; rfl
    | cons c2 rest =>
      intro h
      rw [findMarker] at h
      rw [countMarkers]
      by_cases hstar : c1 = '*' ∧ c2 = '*'
      · rw [if_pos hstar] at h; simp at h
      · rw [if_neg hstar] at h
        rw [if_neg hstar]
        cases hm : findMarker (c2 :: rest) with
        | none => exact ih hm
        | some p => rw [hm] at h; simp at h

lemma findMarker_none_of_countMarkers_zero :
    ∀ cs : List Char, countMarkers cs = 0 → findMarker cs = none := by
  intro cs h
  cases hm : findMarker cs with
  | none => rfl
  | some p =>
    have := countMarkers_of_findMarker cs p.1 p.2 (by rw [hm])
    omega

lemma countMarkers_cons_of_ne (a : Char) (l : List Char) (h : a ≠ '*') :
    countMarkers (a :: l) = countMarkers l := by
  cases l with
  | nil => rfl
  | cons b t =>
    rw [countMarkers, if_neg fun hc => h hc.1]

lemma countMarkers_cons_star (l : List Char) (h : l.head? ≠ some '*') :
    countMarkers ('*' :: l) = countMarkers l := by
  cases l with
  | nil => rfl
  | cons b t =>
    have hb : b ≠ '*' := by
      intro hb
      exact h (by simp [hb])
    rw [countMarkers, if_neg fun hc => hb hc.2]

lemma countMarkers_star_star (l : List Char) :
    countMarkers ('*' :: '*' :: l) = countMarkers l + 1 := by
  rw [countMarkers, if_pos ⟨rfl, rfl⟩]

lemma findCloser_decomp :
    ∀ r i a : List Char, findCloser r = some (i, a) →
      r = i ++ '*' :: '*' :: a ∧ ∀ c ∈ i, isLineTerm c = false := by
  intro r
  induction r with
  | nil => intro i a h; simp [findCloser] at h
  | cons c1 tl ih =>
    cases tl with
    | nil => intro i a h; simp [findCloser] at h
    | cons c2 rest =>
      intro i a h
      rw [findCloser] at h
      by_cases hstar : c1 = '*' ∧ c2 = '*'
      · rw [if_pos hstar] at h
        obtain ⟨rfl, rfl⟩ : ([] : List Char) = i ∧ rest = a := by simpa using h
        exact ⟨by simp [hstar.1, hstar.2], by simp⟩
      · rw [if_neg hstar] at h
        by_cases hterm : isLineTerm c1
        · rw [if_pos hterm] at h; simp at h
        · rw [if_neg hterm] at h
          cases hm : findCloser (c2 :: rest) with
          | none => rw [hm] at h; simp at h
          | some p =>
            rw [hm] at h
            obtain ⟨hb, hr⟩ : c1 :: p.1 = i ∧ p.2 = a := by simpa using h
            obtain ⟨hd, hin⟩ := ih p.1 p.2 (by rw [hm])
            constructor
            · rw [← hb, ← hr, List.cons_append, ← hd]
            · intro c hc
              rw [← hb] at hc
              rcases List.mem_cons.mp hc with rfl | hc2
              · simpa using hterm
              · exact hin c hc2

lemma findMarker_of_findCloser :
    ∀ r i a : List Char, findCloser r = some (i, a) →
      ∀ X : List Char, findMarker (i ++ '*' :: '*' :: X) = some (i, X) := by
  intro r
  induction r with
  | nil => intro i a h; simp [findCloser] at h
  | cons c1 tl ih =>
    cases tl with
    | nil => intro i a h; simp [findCloser] at h
    | cons c2 rest =>
      intro i a h X
      rw [findCloser] at h
      by_cases hstar : c1 = '*' ∧ c2 = '*'
      · rw [if_pos hstar] at h
        obtain ⟨rfl, rfl⟩ : ([] : List Char) = i ∧ rest = a := by simpa using h
        rw [List.nil_append, findMarker, if_pos ⟨rfl, rfl⟩]
      · rw [if_neg hstar] at h
        by_cases hterm : isLineTerm c1
        · rw [if_pos hterm] at h; simp at h
        · rw [if_neg hterm] at h
          cases hm : findCloser (c2 :: rest) with
          | none => rw [hm] at h; simp at h
          | some p =>
            rw [hm] at h
            obtain ⟨hb, hr⟩ : c1 :: p.1 = i ∧ p.2 = a := by simpa using h
            have hIH := ih p.1 p.2 (by rw [hm]) X
            have hd := (findCloser_decomp (c2 :: rest) p.1 p.2 (by rw [hm])).1
            obtain ⟨T, hT⟩ : ∃ T, p.1 ++ '*' :: '*' :: X = c2 :: T := by
              cases hp : p.1 with
              | nil =>
                rw [hp] at hd
                simp only [List.nil_append] at hd
                obtain ⟨hc2, -⟩ := List.cons.injEq .. ▸ hd
                exact ⟨'*' :: X, by simp [hp, hc2]⟩
              | cons d t =>
                rw [hp, List.cons_append] at hd
                obtain ⟨hc2, -⟩ := List.cons.injEq .. ▸ hd
                exact ⟨t ++ '*' :: '*' :: X, by simp [hp, hc2]⟩
            rw [← hb, List.cons_append, hT, findMarker, if_neg hstar, ← hT, hIH]
            rfl

lemma findCloser_none_of_findMarker_none :
    ∀ r : List Char, findMarker r = none → findCloser r = none := by
  intro r
  induction r with
  | nil => intro _; rfl
  | cons c1 tl ih =>
    cases tl with
    | nil => intro _; rfl
    | cons c2 rest =>
      intro h
      rw [findMarker] at h
      by_cases hstar : c1 = '*' ∧ c2 = '*'
      · rw [if_pos hstar] at h; simp at h
      · rw [if_neg hstar] at h
        have h2 : findMarker (c2 :: rest) = none := by
          cases hm : findMarker (c2 :: rest) with
          | none => rfl
          | some p => rw [hm] at h; simp at h
        rw [findCloser, if_neg hstar]
        by_cases hterm : isLineTerm c1
        · rw [if_pos hterm]
        · rw [if_neg hterm, ih h2]
          rfl

lemma countMarkers_cons_firstSeg (c1 c2 : Char) (rest : List Char)
    (hstar : ¬ (c1 = '*' ∧ c2 = '*')) :
    countMarkers (c1 :: firstSeg (c2 :: rest)) =
      countMarkers (firstSeg (c2 :: rest)) := by
  have hhead : ¬ (c1 = '*' ∧ (firstSeg (c2 :: rest)).head? = some '*') := by
    rintro ⟨rfl, hh⟩
    rw [firstSeg] at hh
    by_cases ht2 : isLineTerm c2
    · rw [if_pos ht2] at hh; simp at hh
    · rw [if_neg ht2] at hh
      simp only [List.head?_cons, Option.some.injEq] at hh
      exact hstar ⟨rfl, hh⟩
  by_cases hc1 : c1 = '*'
  · subst hc1
    exact countMarkers_cons_star _ fun hh => hhead ⟨rfl, hh⟩
  · exact countMarkers_cons_of_ne c1 _ hc1

lemma findCloser_eq_findMarker_of_seg :
    ∀ r : List Char, 1 ≤ countMarkers (firstSeg r) →
      ∃ i a, findCloser r = some (i, a) ∧ findMarker r = some (i, a) := by
  intro r
  induction r with
  | nil => intro h; simp [firstSeg, countMarkers] at h
  | cons c1 tl ih =>
    cases tl with
    | nil =>
      intro h
      exfalso
      by_cases hterm : isLineTerm c1
      · simp [firstSeg, hterm, countMarkers] at h
      · simp [firstSeg, hterm, countMarkers] at h
    | cons c2 rest =>
      intro h
      by_cases hstar : c1 = '*' ∧ c2 = '*'
      · refine ⟨[], rest, ?_, ?_⟩
        · rw [findCloser, if_pos hstar]
        · rw [findMarker, if_pos hstar]
      · by_cases hterm : isLineTerm c1
        · exfalso
          rw [firstSeg, if_pos hterm] at h
          simp [countMarkers] at h
        · rw [firstSeg, if_neg hterm, countMarkers_cons_firstSeg c1 c2 rest hstar] at h
          obtain ⟨i, a, hf, hm⟩ := ih h
          refine ⟨c1 :: i, a, ?_, ?_⟩
          · rw [findCloser, if_neg hstar, if_neg hterm, hf]
            rfl
          · rw [findMarker, if_neg hstar, hm]
            rfl

lemma jsScanF_eq_of_le :
    ∀ (f1 f2 : Nat) (cs : List Char), cs.length ≤ f1 → cs.length ≤ f2 →
      jsScanF f1 cs = jsScanF f2 cs := by
  intro f1
  induction f1 with
  | zero =>
    intro f2 cs h1 _
    have hnil : cs = [] := List.eq_nil_of_length_eq_zero (Nat.le_zero.mp h1)
    subst hnil
    cases f2 <;> rfl
  | succ a ih =>
    intro f2 cs h1 h2
    cases cs with
    | nil => cases f2 <;> rfl
    | cons c1 tl =>
      cases tl with
      | nil => cases f2 <;> rfl
      | cons c2 rest =>
        cases f2 with
        | zero => simp at h2
        | succ b =>
          simp only [List.length_cons] at h1 h2
          simp only [jsScanF]
          by_cases hstar : c1 = '*' ∧ c2 = '*'
          · rw [if_pos hstar, if_pos hstar]
            cases findCloser rest with
            | some p =>
              obtain ⟨i, a⟩ := p
              rfl
            | none =>
              exact congrArg (Option.map fun p => (c1 :: p.1, p.2.1, p.2.2))
                (ih b (c2 :: rest) (by simp only [List.length_cons]; omega)
                  (by simp only [List.length_cons]; omega))
          · rw [if_neg hstar, if_neg hstar]
            congr 1
            apply ih
            · simp only [List.length_cons]; omega
            · simp only [List.length_cons]; omega

lemma jsScan_cons_close {c1 c2 : Char} {rest i a : List Char}
    (hstar : c1 = '*' ∧ c2 = '*') (hf : findCloser rest = some (i, a)) :
    jsScan (c1 :: c2 :: rest) = some ([], i, a) := by
  rw [jsScan]
  simp only [List.length_cons, jsScanF, if_pos hstar, hf]

lemma jsScan_cons_step {c1 c2 : Char} {rest : List Char}
    (h : c1 = '*' ∧ c2 = '*' → findCloser rest = none) :
    jsScan (c1 :: c2 :: rest) =
      (jsScan (c2 :: rest)).map fun p => (c1 :: p.1, p.2.1, p.2.2) := by
  rw [jsScan, jsScan]
  simp only [List.length_cons, jsScanF]
  by_cases hstar : c1 = '*' ∧ c2 = '*'
  · rw [if_pos hstar, h hstar]
  · rw [if_neg hstar]

lemma jsScan_decomp :
    ∀ cs pre i a : List Char, jsScan cs = some (pre, i, a) →
      cs = pre ++ '*' :: '*' :: (i ++ '*' :: '*' :: a) := by
  intro cs
  induction cs with
  | nil => intro pre i a h; simp [jsScan, jsScanF] at h
  | cons c1 tl ih =>
    cases tl with
    | nil => intro pre i a h; simp [jsScan, jsScanF] at h
    | cons c2 rest =>
      intro pre i a h
      by_cases hstar : c1 = '*' ∧ c2 = '*'
      · cases hf : findCloser rest with
        | some p =>
          obtain ⟨i0, a0⟩ := p
          rw [jsScan_cons_close hstar hf] at h
          obtain ⟨h1, h2, h3⟩ : ([] : List Char) = pre ∧ i0 = i ∧ a0 = a := by
            simpa using h
          have hd := (findCloser_decomp rest i0 a0 hf).1
          rw [← h1, ← h2, ← h3, List.nil_append, hstar.1, hstar.2, hd]
        | none =>
          rw [jsScan_cons_step fun _ => hf] at h
          cases hs : jsScan (c2 :: rest) with
          | none => rw [hs] at h; simp at h
          | some q =>
            obtain ⟨q1, q2, q3⟩ := q
            rw [hs] at h
            obtain ⟨h1, h2, h3⟩ : c1 :: q1 = pre ∧ q2 = i ∧ q3 = a := by
              simpa using h
            have hq := ih q1 q2 q3 (by rw [hs])
            rw [← h1, ← h2, ← h3, List.cons_append, ← hq]
      · rw [jsScan_cons_step fun hc => absurd hc hstar] at h
        cases hs : jsScan (c2 :: rest) with
        | none => rw [hs] at h; simp at h
        | some q =>
          obtain ⟨q1, q2, q3⟩ := q
          rw [hs] at h
          obtain ⟨h1, h2, h3⟩ : c1 :: q1 = pre ∧ q2 = i ∧ q3 = a := by
            simpa using h
          have hq := ih q1 q2 q3 (by rw [hs])
          rw [← h1, ← h2, ← h3, List.cons_append, ← hq]

lemma jsScan_none_of_findMarker_none :
    ∀ cs : List Char, findMarker cs = none → jsScan cs = none := by
  intro cs
  induction cs with
  | nil => intro _; rfl
  | cons c1 tl ih =>
    cases tl with
    | nil => intro _; rfl
    | cons c2 rest =>
      intro h
      rw [findMarker] at h
      by_cases hstar : c1 = '*' ∧ c2 = '*'
      · rw [if_pos hstar] at h; simp at h
      · rw [if_neg hstar] at h
        have h2 : findMarker (c2 :: rest) = none := by
          cases hm : findMarker (c2 :: rest) with
          | none => rfl
          | some p => rw [hm] at h; simp at h
        rw [jsScan_cons_step fun hc => absurd hc hstar, ih h2]
        rfl

lemma jsScan_none_of_le_one :
    ∀ cs : List Char, countMarkers cs ≤ 1 → jsScan cs = none := by
  intro cs
  induction cs with
  | nil => intro _; rfl
  | cons c1 tl ih =>
    cases tl with
    | nil => intro _; rfl
    | cons c2 rest =>
      intro h
      by_cases hstar : c1 = '*' ∧ c2 = '*'
      · obtain ⟨hc1, hc2⟩ := hstar
        subst hc1
        subst hc2
        rw [countMarkers_star_star] at h
        have hr : countMarkers rest = 0 := by omega
        have hfc : findCloser rest = none :=
          findCloser_none_of_findMarker_none rest
            (findMarker_none_of_countMarkers_zero rest hr)
        rw [jsScan_cons_step fun _ => hfc]
        have hle : countMarkers ('*' :: rest) ≤ 1 := by
          cases rest with
          | nil => decide
          | cons d t =>
            by_cases hd : d = '*'
            · subst hd
              cases t with
              | nil => decide
              | cons e u =>
                by_cases he : e = '*'
                · subst he
                  rw [countMarkers_star_star] at hr
                  omega
                · have h1 : countMarkers ('*' :: e :: u) = countMarkers (e :: u) := by
                    rw [countMarkers, if_neg fun hc => he hc.2]
                  rw [countMarkers_star_star]
                  rw [h1] at hr
                  omega
            · have h1 : countMarkers ('*' :: d :: t) = countMarkers (d :: t) := by
                rw [countMarkers, if_neg fun hc => hd hc.2]
              rw [h1]
              omega
        rw [ih hle]
        rfl
      · have hc : countMarkers (c2 :: rest) ≤ 1 := by
          rw [countMarkers, if_neg hstar] at h
          exact h
        rw [jsScan_cons_step fun hc2 => absurd hc2 hstar, ih hc]
        rfl

lemma parseBoldF_eq_of_le :
    ∀ (f1 f2 : Nat) (cs : List Char), cs.length ≤ f1 → cs.length ≤ f2 →
      parseBoldF f1 cs = parseBoldF f2 cs := by
  intro f1
  induction f1 with
  | zero =>
    intro f2 cs h1 _
    have hnil : cs = [] := List.eq_nil_of_length_eq_zero (Nat.le_zero.mp h1)
    subst hnil
    cases f2 with
    | zero => rfl
    | succ b => rfl
  | succ a ih =>
    intro f2 cs h1 h2
    cases f2 with
    | zero =>
      have hnil : cs = [] := List.eq_nil_of_length_eq_zero (Nat.le_zero.mp h2)
      subst hnil
      rfl
    | succ b =>
      cases hm : jsScan cs with
      | none => simp only [parseBoldF, hm]
      | some p =>
        obtain ⟨pre, i, a⟩ := p
        simp only [parseBoldF, hm]
        have hd := jsScan_decomp cs pre i a hm
        have hlen : a.length + 4 ≤ cs.length := by
          rw [hd]
          simp only [List.length_append, List.length_cons]
          omega
        congr 1
        apply ih
        · omega
        · omega

lemma parseBold_noneEq (cs : List Char) (hm : jsScan cs = none) :
    parseBold cs = mapPart cs := by
  cases cs with
  | nil => rfl
  | cons c tl =>
    rw [parseBold, List.length_cons]
    simp only [parseBoldF, hm]

lemma parseBold_someEq (cs pre i a : List Char)
    (hm : jsScan cs = some (pre, i, a)) :
    parseBold cs =
      mapPart pre ++ strongOpen ++ i ++ strongClose ++ parseBold a := by
  cases cs with
  | nil => simp [jsScan, jsScanF] at hm
  | cons c tl =>
    rw [parseBold, List.length_cons]
    simp only [parseBoldF, hm]
    have hd := jsScan_decomp _ _ _ _ hm
    have hlen : a.length + 4 ≤ (c :: tl).length := by
      rw [hd]
      simp only [List.length_append, List.length_cons]
      omega
    rw [List.length_cons] at hlen
    congr 1
    rw [parseBold]
    apply parseBoldF_eq_of_le
    · omega
    · omega

lemma boldWrapped_false_of_findMarker_none (cs : List Char)
    (h : findMarker cs = none) : boldWrapped cs = false := by
  cases cs with
  | nil => rfl
  | cons c1 tl =>
    cases tl with
    | nil => simp [boldWrapped, List.isPrefixOf]
    | cons c2 rest =>
      rw [findMarker] at h
      by_cases hstar : c1 = '*' ∧ c2 = '*'
      · rw [if_pos hstar] at h; simp at h
      · rw [boldWrapped]
        have hpre : (['*', '*'] : List Char).isPrefixOf (c1 :: c2 :: rest) = false := by
          show ('*' == c1 && ('*' == c2 && List.isPrefixOf [] rest)) = false
          by_cases h1 : c1 = '*'
          · have h2 : c2 ≠ '*' := fun hc => hstar ⟨h1, hc⟩
            simp [h1, beq_eq_false_iff_ne.mpr (Ne.symm h2)]
          · simp [beq_eq_false_iff_ne.mpr (Ne.symm h1)]
        rw [hpre]
        rfl

lemma findMarker_before :
    ∀ cs b r : List Char, findMarker cs = some (b, r) → findMarker b = none := by
  intro cs
  induction cs with
  | nil => intro b r h; simp [findMarker] at h
  | cons c1 tl ih =>
    cases tl with
    | nil => intro b r h; simp [findMarker] at h
    | cons c2 rest =>
      intro b r h
      rw [findMarker] at h
      by_cases hstar : c1 = '*' ∧ c2 = '*'
      · rw [if_pos hstar] at h
        obtain ⟨rfl, rfl⟩ : ([] : List Char) = b ∧ rest = r := by simpa using h
        rfl
      · rw [if_neg hstar] at h
        cases hm : findMarker (c2 :: rest) with
        | none => rw [hm] at h; simp at h
        | some p =>
          rw [hm] at h
          obtain ⟨hb, hr⟩ : c1 :: p.1 = b ∧ p.2 = r := by simpa using h
          have hIH := ih p.1 p.2 (by rw [hm])
          rw [← hb]
          cases hp : p.1 with
          | nil => rfl
          | cons d t =>
            have hd := findMarker_decomp _ _ _ hm
            rw [hp, List.cons_append] at hd
            have hc2 : c2 = d := by
              injection hd with h1 h2
            rw [hp] at hIH
            rw [findMarker, if_neg fun hc => hstar ⟨hc.1, hc2 ▸ hc.2⟩, hIH]
            rfl

lemma firstSeg_append (l t : List Char) (h : ∀ c ∈ l, isLineTerm c = false) :
    firstSeg (l ++ t) = l ++ firstSeg t := by
  induction l with
  | nil => rfl
  | cons c l ih =>
    have hc : isLineTerm c = false := h c (by simp)
    rw [List.cons_append, firstSeg, if_neg (by simp [hc]),
      ih fun d hd => h d (by simp [hd]), List.cons_append]

lemma afterSeg_append (l t : List Char) (h : ∀ c ∈ l, isLineTerm c = false) :
    afterSeg (l ++ t) = afterSeg t := by
  induction l with
  | nil => rfl
  | cons c l ih =>
    have hc : isLineTerm c = false := h c (by simp)
    rw [List.cons_append, afterSeg, if_neg (by simp [hc]),
      ih fun d hd => h d (by simp [hd])]

lemma lineSegments_eq (cs : List Char) :
    lineSegments cs =
      firstSeg cs ::
        (match afterSeg cs with
         | some r => lineSegments r
         | none => []) := by
  induction cs with
  | nil => rfl
  | cons c cs ih =>
    by_cases h : isLineTerm c = true
    · simp only [lineSegments, firstSeg, afterSeg]
      rw [if_pos h, if_pos h, if_pos h]
    · simp only [lineSegments, firstSeg, afterSeg]
      rw [if_neg h, if_neg h, if_neg h, ih]

lemma linesBalanced_iff (cs : List Char) :
    linesBalanced cs ↔
      countMarkers (firstSeg cs) % 2 = 0 ∧
        ∀ r, afterSeg cs = some r → linesBalanced r := by
  rw [linesBalanced, lineSegments_eq cs]
  cases ha : afterSeg cs with
  | none =>
    constructor
    · intro h
      exact ⟨h _ (by simp), fun r hr => Option.noConfusion hr⟩
    · rintro ⟨h1, -⟩ L hL
      simp only [List.mem_cons, List.not_mem_nil, or_false] at hL
      rw [hL]
      exact h1
  | some r =>
    constructor
    · intro h
      refine ⟨h _ (by simp), fun r' hr' => ?_⟩
      obtain rfl : r = r' := by injection hr'
      intro L hL
      exact h L (by simp [linesBalanced] at hL ⊢; exact Or.inr hL)
    · rintro ⟨h1, h2⟩ L hL
      rcases List.mem_cons.mp hL with rfl | hL2
      · exact h1
      · exact h2 r rfl L hL2

lemma linesBalanced_tail (c1 c2 : Char) (rest : List Char)
    (h : linesBalanced (c1 :: c2 :: rest)) (hstar : ¬ (c1 = '*' ∧ c2 = '*')) :
    linesBalanced (c2 :: rest) := by
  rw [linesBalanced_iff] at h
  obtain ⟨h1, h2⟩ := h
  by_cases hterm : isLineTerm c1
  · exact h2 _ (by rw [afterSeg, if_pos hterm])
  · rw [linesBalanced_iff]
    constructor
    · rw [firstSeg, if_neg hterm, countMarkers_cons_firstSeg c1 c2 rest hstar] at h1
      exact h1
    · intro r hr
      refine h2 r ?_
      rw [afterSeg, if_neg hterm]
      exact hr

lemma jsScan_of_linesBalanced :
    ∀ cs : List Char, linesBalanced cs →
      ∀ b r : List Char, findMarker cs = some (b, r) →
        ∃ i a, jsScan cs = some (b, i, a) ∧ r = i ++ '*' :: '*' :: a := by
  intro cs
  induction cs with
  | nil => intro _ b r h; simp [findMarker] at h
  | cons c1 tl ih =>
    cases tl with
    | nil => intro _ b r h; simp [findMarker] at h
    | cons c2 rest =>
      intro hlb b r h
      rw [findMarker] at h
      by_cases hstar : c1 = '*' ∧ c2 = '*'
      · rw [if_pos hstar] at h
        obtain ⟨rfl, rfl⟩ : ([] : List Char) = b ∧ rest = r := by simpa using h
        obtain ⟨hc1, hc2⟩ := hstar
        subst hc1
        subst hc2
        have h1 := ((linesBalanced_iff _).mp hlb).1
        rw [firstSeg, if_neg (by decide), firstSeg, if_neg (by decide),
          countMarkers_star_star] at h1
        have hge : 1 ≤ countMarkers (firstSeg rest) := by omega
        obtain ⟨i, a, hfc, hfm⟩ := findCloser_eq_findMarker_of_seg rest hge
        exact ⟨i, a, jsScan_cons_close ⟨rfl, rfl⟩ hfc,
          (findMarker_decomp rest i a hfm)⟩
      · rw [if_neg hstar] at h
        cases hm : findMarker (c2 :: rest) with
        | none => rw [hm] at h; simp at h
        | some p =>
          rw [hm] at h
          obtain ⟨hb, hr⟩ : c1 :: p.1 = b ∧ p.2 = r := by simpa using h
          have hlb2 := linesBalanced_tail c1 c2 rest hlb hstar
          obtain ⟨i, a, hs, hdec⟩ := ih hlb2 p.1 p.2 (by rw [hm])
          refine ⟨i, a, ?_, ?_⟩
          · rw [jsScan_cons_step fun hc => absurd hc hstar, hs, ← hb]
            rfl
          · rw [← hr]
            exact hdec

lemma linesBalanced_after :
    ∀ cs : List Char, linesBalanced cs →
      ∀ pre i a : List Char, jsScan cs = some (pre, i, a) → linesBalanced a := by
  intro cs
  induction cs with
  | nil => intro _ pre i a h; simp [jsScan, jsScanF] at h
  | cons c1 tl ih =>
    cases tl with
    | nil => intro _ pre i a h; simp [jsScan, jsScanF] at h
    | cons c2 rest =>
      intro hlb pre i a h
      by_cases hstar : c1 = '*' ∧ c2 = '*'
      · cases hf : findCloser rest with
        | none =>
          exfalso
          obtain ⟨hc1, hc2⟩ := hstar
          subst hc1
          subst hc2
          have h1 := ((linesBalanced_iff _).mp hlb).1
          rw [firstSeg, if_neg (by decide), firstSeg, if_neg (by decide),
            countMarkers_star_star] at h1
          have hge : 1 ≤ countMarkers (firstSeg rest) := by omega
          obtain ⟨i0, a0, hfc, -⟩ := findCloser_eq_findMarker_of_seg rest hge
          rw [hf] at hfc
          exact Option.noConfusion hfc
        | some p =>
          obtain ⟨i0, a0⟩ := p
          rw [jsScan_cons_close hstar hf] at h
          obtain ⟨h1e, h2e, h3e⟩ : ([] : List Char) = pre ∧ i0 = i ∧ a0 = a := by
            simpa using h
          obtain ⟨hc1, hc2⟩ := hstar
          subst hc1
          subst hc2
          obtain ⟨hdec, htermfree⟩ := findCloser_decomp rest i0 a0 hf
          have hfm := findMarker_of_findCloser rest i0 a0 hf
          rw [linesBalanced_iff] at hlb
          obtain ⟨h1, h2⟩ := hlb
          rw [firstSeg, if_neg (by decide), firstSeg, if_neg (by decide),
            countMarkers_star_star, hdec] at h1
          have hfsg : firstSeg (i0 ++ '*' :: '*' :: a0) =
              i0 ++ '*' :: '*' :: firstSeg a0 := by
            rw [firstSeg_append i0 _ htermfree, firstSeg, if_neg (by decide),
              firstSeg, if_neg (by decide)]
          rw [hfsg, countMarkers_of_findMarker _ _ _ (hfm (firstSeg a0))] at h1
          rw [← h3e, linesBalanced_iff]
          constructor
          · omega
          · intro r' hr'
            refine h2 r' ?_
            rw [afterSeg, if_neg (by decide), afterSeg, if_neg (by decide),
              hdec, afterSeg_append i0 _ htermfree, afterSeg,
              if_neg (by decide), afterSeg, if_neg (by decide)]
            exact hr'
      · rw [jsScan_cons_step fun hc => absurd hc hstar] at h
        cases hs : jsScan (c2 :: rest) with
        | none => rw [hs] at h; simp at h
        | some q =>
          obtain ⟨q1, q2, q3⟩ := q
          rw [hs] at h
          obtain ⟨h1, h2, h3⟩ : c1 :: q1 = pre ∧ q2 = i ∧ q3 = a := by
            simpa using h
          have hlb2 := linesBalanced_tail c1 c2 rest hlb hstar
          exact h3 ▸ ih hlb2 q1 q2 q3 (by rw [hs])

lemma strongOpen_eq : strongOpen = ['<', 's', 't', 'r', 'o', 'n', 'g', '>'] := rfl

lemma strongClose_eq :
    strongClose = ['<', '/', 's', 't', 'r', 'o', 'n', 'g', '>'] := rfl

lemma chP_false_of_ne {a c : Char} (h : c ≠ a) : chP a c = false := by
  simp only [chP]
  exact beq_eq_false_iff_ne.mpr h

lemma pass1_skip (l t : List Char) (h : ∀ c ∈ l, c ≠ '<') :
    replaceAllP strongOpenPat "**".toList (l ++ t) =
      l ++ replaceAllP strongOpenPat "**".toList t := by
  unfold strongOpenPat
  exact replaceAllP_append_skip _ _ _ l t fun c hc => chP_false_of_ne (h c hc)

lemma pass1_id (l : List Char) (h : ∀ c ∈ l, c ≠ '<') :
    replaceAllP strongOpenPat "**".toList l = l := by
  unfold strongOpenPat
  exact replaceAllP_id _ _ _ l fun c hc => chP_false_of_ne (h c hc)

lemma pass2_skip (l t : List Char) (h : ∀ c ∈ l, c ≠ '<') :
    replaceAllP strongClosePat "**".toList (l ++ t) =
      l ++ replaceAllP strongClosePat "**".toList t := by
  unfold strongClosePat
  exact replaceAllP_append_skip _ _ _ l t fun c hc => chP_false_of_ne (h c hc)

lemma pass2_id (l : List Char) (h : ∀ c ∈ l, c ≠ '<') :
    replaceAllP strongClosePat "**".toList l = l := by
  unfold strongClosePat
  exact replaceAllP_id _ _ _ l fun c hc => chP_false_of_ne (h c hc)

lemma isMatch_strongOpen (t : List Char) :
    isMatchP strongOpenPat (strongOpen ++ t) = true := by
  rw [strongOpen_eq]
  simp [strongOpenPat, isMatchP, chP, ciP]

lemma pass1_fire (t : List Char) :
    replaceAllP strongOpenPat "**".toList (strongOpen ++ t) =
      '*' :: '*' :: replaceAllP strongOpenPat "**".toList t :=
  replaceAllP_fire strongOpenPat "**".toList strongOpen t
    (isMatch_strongOpen t) rfl (by rw [strongOpen_eq]; simp)

lemma isMatch_strongClose (t : List Char) :
    isMatchP strongClosePat (strongClose ++ t) = true := by
  rw [strongClose_eq]
  simp [strongClosePat, isMatchP, chP, ciP]

lemma pass2_fire (t : List Char) :
    replaceAllP strongClosePat "**".toList (strongClose ++ t) =
      '*' :: '*' :: replaceAllP strongClosePat "**".toList t :=
  replaceAllP_fire strongClosePat "**".toList strongClose t
    (isMatch_strongClose t) rfl (by rw [strongClose_eq]; simp)

lemma isMatch_strongOpen_at_close (x : List Char) :
    isMatchP strongOpenPat ('<' :: '/' :: x) = false := by
  simp [strongOpenPat, isMatchP, chP, ciP]

lemma pass1_close (t : List Char) :
    replaceAllP strongOpenPat "**".toList (strongClose ++ t) =
      strongClose ++ replaceAllP strongOpenPat "**".toList t := by
  rw [strongClose_eq]
  rw [List.cons_append, List.cons_append, replaceAllP_cons,
    isMatch_strongOpen_at_close]
  simp only [Bool.false_eq_true, if_false]
  have hrest : ∀ c ∈ ['/', 's', 't', 'r', 'o', 'n', 'g', '>'], c ≠ '<' := by decide
  have hsplit : ('/' :: (['s', 't', 'r', 'o', 'n', 'g', '>'] ++ t) : List Char) =
      ['/', 's', 't', 'r', 'o', 'n', 'g', '>'] ++ t := rfl
  rw [hsplit, pass1_skip _ t hrest]
  rfl

lemma pass2_star_skip (l : List Char) :
    replaceAllP strongClosePat "**".toList ('*' :: l) =
      '*' :: replaceAllP strongClosePat "**".toList l := by
  unfold strongClosePat
  exact replaceAllP_cons_skip (chP_false_of_ne (by decide))

/-- Core of the round-trip law: undoing the two `strong`-tag replacements on
the encoder's output recovers the input, for inputs free of raw `<` whose
`**` delimiters pair up within every line. -/
lemma strongPasses_roundtrip :
    ∀ (n : Nat) (cs : List Char), cs.length ≤ n → cleanText cs →
      linesBalanced cs →
      replaceAllP strongClosePat "**".toList
        (replaceAllP strongOpenPat "**".toList (parseBold cs)) = cs := by
  intro n
  induction n with
  | zero =>
    intro cs h1 _ _
    have hnil : cs = [] := List.eq_nil_of_length_eq_zero (Nat.le_zero.mp h1)
    subst hnil
    rfl
  | succ n ih =>
    intro cs h1 hclean hlb
    cases hm : findMarker cs with
    | none =>
      have hlt : ∀ c ∈ cs, c ≠ '<' := fun c hc => (hclean c hc).1
      have hsc : jsScan cs = none := jsScan_none_of_findMarker_none cs hm
      rw [parseBold_noneEq cs hsc, mapPart,
        boldWrapped_false_of_findMarker_none cs hm]
      simp only [Bool.false_eq_true, if_false]
      rw [pass1_id cs hlt, pass2_id cs hlt]
    | some p =>
      obtain ⟨b, r⟩ := p
      obtain ⟨inner, after, hscan, hr⟩ := jsScan_of_linesBalanced cs hlb b r hm
      have hfb : findMarker b = none := findMarker_before cs b r hm
      have d1 := findMarker_decomp cs b r hm
      have d2 : cs = b ++ '*' :: '*' :: (inner ++ '*' :: '*' :: after) := by
        rw [d1, hr]
      have hmem : ∀ c : Char, c ∈ b ∨ c ∈ inner ∨ c ∈ after → c ∈ cs := by
        intro c hc
        rw [d2]
        rcases hc with h | h | h <;> simp [h]
      have hb_lt : ∀ c ∈ b, c ≠ '<' :=
        fun c hc => (hclean c (hmem c (Or.inl hc))).1
      have hi_lt : ∀ c ∈ inner, c ≠ '<' :=
        fun c hc => (hclean c (hmem c (Or.inr (Or.inl hc)))).1
      have ha_clean : cleanText after :=
        fun c hc => hclean c (hmem c (Or.inr (Or.inr hc)))
      have ha_lb : linesBalanced after :=
        linesBalanced_after cs hlb b inner after hscan
      have ha_len : after.length ≤ n := by
        have : cs.length = b.length + 2 + (inner.length + 2 + after.length) := by
          rw [d2]
          simp [List.length_append]
          omega
        omega
      have hih := ih after ha_len ha_clean ha_lb
      rw [parseBold_someEq cs b inner after hscan, mapPart,
        boldWrapped_false_of_findMarker_none b hfb]
      simp only [Bool.false_eq_true, if_false]
      simp only [List.append_assoc]
      rw [pass1_skip b _ hb_lt, pass1_fire, pass1_skip inner _ hi_lt,
        pass1_close, pass2_skip b _ hb_lt, pass2_star_skip,
        pass2_star_skip, pass2_skip inner _ hi_lt, pass2_fire, hih, d2]

lemma nbsp_id (l : List Char) (h : ∀ c ∈ l, c ≠ '&') :
    replaceAllP nbspPat " ".toList l = l := by
  unfold nbspPat
  exact replaceAllP_id _ _ _ l fun c hc => chP_false_of_ne (h c hc)

lemma ampLt_id (l : List Char) (h : ∀ c ∈ l, c ≠ '&') :
    replaceAllP ampLtPat "<".toList l = l := by
  unfold ampLtPat
  exact replaceAllP_id _ _ _ l fun c hc => chP_false_of_ne (h c hc)

lemma ampGt_id (l : List Char) (h : ∀ c ∈ l, c ≠ '&') :
    replaceAllP ampGtPat ">".toList l = l := by
  unfold ampGtPat
  exact replaceAllP_id _ _ _ l fun c hc => chP_false_of_ne (h c hc)

lemma replaceBr_cons_ne (c : Char) (cs : List Char) (h : ¬ c = '<') :
    replaceBr (c :: cs) = c :: replaceBr cs := by
  rw [replaceBr, List.length_cons]
  simp only [replaceBrF, if_neg h]
  rfl

lemma replaceBr_id (l : List Char) (h : ∀ c ∈ l, c ≠ '<') :
    replaceBr l = l := by
  induction l with
  | nil => rfl
  | cons c cs ih =>
    rw [replaceBr_cons_ne c cs (h c (by simp)),
      ih fun d hd => h d (by simp [hd])]

lemma stripTags_cons_ne (c : Char) (cs : List Char) (h : ¬ c = '<') :
    stripTags (c :: cs) = c :: stripTags cs := by
  rw [stripTags, List.length_cons]
  simp only [stripTagsF, if_neg h]
  rfl

lemma stripTags_id (l : List Char) (h : ∀ c ∈ l, c ≠ '<') :
    stripTags l = l := by
  induction l with
  | nil => rfl
  | cons c cs ih =>
    rw [stripTags_cons_ne c cs (h c (by simp)),
      ih fun d hd => h d (by simp [hd])]

lemma ltPat_id (l : List Char) (h : ∀ c ∈ l, c ≠ '<') :
    replaceAllP ltPat "&lt;".toList l = l := by
  unfold ltPat
  exact replaceAllP_id _ _ _ l fun c hc => chP_false_of_ne (h c hc)

lemma gtPat_id (l : List Char) (h : ∀ c ∈ l, c ≠ '>') :
    replaceAllP gtPat "&gt;".toList l = l := by
  unfold gtPat
  exact replaceAllP_id _ _ _ l fun c hc => chP_false_of_ne (h c hc)

lemma escapeLtGt_id (l : List Char) (h : ∀ c ∈ l, c ≠ '<' ∧ c ≠ '>') :
    escapeLtGt l = l := by
  rw [escapeLtGt, ltPat_id l fun c hc => (h c hc).1,
    gtPat_id l fun c hc => (h c hc).2]

/-- C3 counterexample: the split regex `/(\*\*.*?\*\*)/g` uses `.`, which
does not match line terminators, so a `**` pair can never close across a
newline.  In `x**\ny**a*****` the six `**` occurrences are globally balanced
and no markup-significant character occurs, yet the first `**` (before the
newline) stays unpaired, the scan pairs `**a**`, and the residue `***` — a
part that both starts and ends with `**` — is turned into an empty
`<strong></strong>` by the map fallback.  Decoding therefore returns
`x**\ny**a******` (six trailing asterisks), not the original input. -/
theorem markup_roundtrip_counterexample :
    cleanText "x**\ny**a*****".toList ∧
    boldBalanced "x**\ny**a*****".toList ∧
    parseToText (parseToHtml "x**\ny**a*****".toList) =
      "x**\ny**a******".toList ∧
    parseToText (parseToHtml "x**\ny**a*****".toList) ≠
      "x**\ny**a*****".toList :=
  ⟨by decide, by decide, by decide, by decide⟩

/-- C3 (amended): round-trip law of the markup codec.  Because the split
regex dot does not match line terminators, an emphasis span never crosses a
line break, so the delimiters must pair up within every line, not merely
globally.  For text whose `**` delimiters are balanced on each line and
which contains no raw markup-significant character (`<`, `>`, and `&` — the
decoder's entity rewriting makes `&` significant), decoding the encoding
returns the text unchanged. -/
theorem markup_roundtrip (text : List Char) (hclean : cleanText text)
    (hbal : linesBalanced text) :
    parseToText (parseToHtml text) = text := by
  have hesc : escapeLtGt text = text :=
    escapeLtGt_id text fun c hc => ⟨(hclean c hc).1, (hclean c hc).2.1⟩
  have hamp : ∀ c ∈ text, c ≠ '&' := fun c hc => (hclean c hc).2.2
  have hlt : ∀ c ∈ text, c ≠ '<' := fun c hc => (hclean c hc).1
  rw [parseToHtml, hesc, parseToText,
    strongPasses_roundtrip text.length text le_rfl hclean hbal,
    nbsp_id text hamp, ampLt_id text hamp, ampGt_id text hamp,
    replaceBr_id text hlt, stripTags_id text hlt]

theorem markup_roundtrip_witness :
    parseToText (parseToHtml "Veja a **graça**\ne a **fé**".toList) =
      "Veja a **graça**\ne a **fé**".toList :=
  markup_roundtrip "Veja a **graça**\ne a **fé**".toList (by decide) (by decide)

lemma replaceAllP_single (a : Char) (rep : List Char) :
    ∀ cs : List Char,
      replaceAllP [chP a] rep cs =
        cs.flatMap fun c => if c = a then rep else [c] := by
  intro cs
  induction cs with
  | nil => rfl
  | cons c cs ih =>
    rw [replaceAllP_cons, List.flatMap_cons]
    by_cases h : c = a
    · have hm : isMatchP [chP a] (c :: cs) = true := by
        simp [isMatchP, chP, h]
      rw [if_pos hm, if_pos h]
      simp only [List.length_cons, List.length_nil, Nat.zero_add,
        Nat.sub_self, List.drop_zero]
      rw [ih]
    · have hm : isMatchP [chP a] (c :: cs) = false := by
        simp [isMatchP, chP, h]
      rw [hm]
      simp only [Bool.false_eq_true, if_false, if_neg h]
      rw [ih]
      rfl

lemma flatMap_congr_mem {α β : Type} (l : List α) (f g : α → List β)
    (h : ∀ x ∈ l, f x = g x) : l.flatMap f = l.flatMap g := by
  induction l with
  | nil => rfl
  | cons a l ih =>
    rw [List.flatMap_cons, List.flatMap_cons, h a (by simp),
      ih fun x hx => h x (by simp [hx])]

lemma escapeLtGt_eq_flatMap (cs : List Char) :
    escapeLtGt cs = cs.flatMap escChar := by
  rw [escapeLtGt]
  unfold ltPat gtPat
  rw [replaceAllP_single, replaceAllP_single, List.flatMap_assoc]
  apply flatMap_congr_mem
  intro c _
  by_cases h1 : c = '<'
  · subst h1
    decide
  · by_cases h2 : c = '>'
    · subst h2
      decide
    · simp [escChar, h1, h2]

lemma escChar_append_head_ne_star (c : Char) (t : List Char) (h : c ≠ '*') :
    (escChar c ++ t).head? ≠ some '*' := by
  by_cases h1 : c = '<'
  · simp [escChar, h1]
  · by_cases h2 : c = '>'
    · simp [escChar, h1, h2]
    · simp [escChar, h1, h2, h]

lemma countMarkers_escChar_append (c : Char) (l : List Char)
    (h : c = '*' → l.head? ≠ some '*') :
    countMarkers (escChar c ++ l) = countMarkers l := by
  by_cases h1 : c = '<'
  · subst h1
    show countMarkers ('&' :: 'l' :: 't' :: ';' :: l) = countMarkers l
    rw [countMarkers_cons_of_ne '&' _ (by decide),
      countMarkers_cons_of_ne 'l' _ (by decide),
      countMarkers_cons_of_ne 't' _ (by decide),
      countMarkers_cons_of_ne ';' _ (by decide)]
  · by_cases h2 : c = '>'
    · subst h2
      show countMarkers ('&' :: 'g' :: 't' :: ';' :: l) = countMarkers l
      rw [countMarkers_cons_of_ne '&' _ (by decide),
        countMarkers_cons_of_ne 'g' _ (by decide),
        countMarkers_cons_of_ne 't' _ (by decide),
        countMarkers_cons_of_ne ';' _ (by decide)]
    · by_cases h3 : c = '*'
      · subst h3
        rw [show escChar '*' = ['*'] from rfl, List.singleton_append]
        exact countMarkers_cons_star l (h rfl)
      · rw [show escChar c = [c] from by simp [escChar, h1, h2],
          List.singleton_append]
        exact countMarkers_cons_of_ne c l h3

lemma countMarkers_flatMap_escChar :
    ∀ (n : Nat) (cs : List Char), cs.length ≤ n →
      countMarkers (cs.flatMap escChar) = countMarkers cs := by
  intro n
  induction n with
  | zero =>
    intro cs h1
    have hnil : cs = [] := List.eq_nil_of_length_eq_zero (Nat.le_zero.mp h1)
    subst hnil
    rfl
  | succ n ih =>
    intro cs h1
    cases cs with
    | nil => rfl
    | cons c1 tl =>
      cases tl with
      | nil =>
        by_cases hc1 : c1 = '<'
        · subst hc1; decide
        · by_cases hc2 : c1 = '>'
          · subst hc2; decide
          · simp [List.flatMap_cons, escChar, hc1, hc2, countMarkers]
      | cons c2 rest =>
        simp only [List.length_cons] at h1
        by_cases hstar : c1 = '*' ∧ c2 = '*'
        · obtain ⟨rfl, rfl⟩ : c1 = '*' ∧ c2 = '*' := hstar
          show countMarkers ('*' :: '*' :: rest.flatMap escChar) =
            countMarkers ('*' :: '*' :: rest)
          rw [countMarkers_star_star, countMarkers_star_star,
            ih rest (by omega)]
        · have hrhs : countMarkers (c1 :: c2 :: rest) = countMarkers (c2 :: rest) := by
            rw [countMarkers, if_neg hstar]
          rw [hrhs, List.flatMap_cons]
          have hhead : c1 = '*' → ((c2 :: rest).flatMap escChar).head? ≠ some '*' := by
            intro hc1
            have hc2 : c2 ≠ '*' := fun hc => hstar ⟨hc1, hc⟩
            rw [List.flatMap_cons]
            exact escChar_append_head_ne_star c2 _ hc2
          rw [countMarkers_escChar_append c1 _ hhead,
            ih (c2 :: rest) (by simp only [List.length_cons]; omega)]

lemma countMarkers_escape (cs : List Char) :
    countMarkers (escapeLtGt cs) = countMarkers cs := by
  rw [escapeLtGt_eq_flatMap]
  exact countMarkers_flatMap_escChar cs.length cs le_rfl

lemma isPrefixOf_star2_flatMap (g : Char → List Char)
    (hne : ∀ c, g c ≠ [])
    (hhead : ∀ c, (g c).head? = some '*' ↔ c = '*')
    (hstar : g '*' = ['*']) :
    ∀ cs : List Char,
      (['*', '*'] : List Char).isPrefixOf (cs.flatMap g) =
        (['*', '*'] : List Char).isPrefixOf cs := by
  have hbeq : ∀ d e : Char, (e = '*' ↔ d = '*') → ('*' == e) = ('*' == d) := by
    intro d e he
    by_cases hd : d = '*'
    · rw [hd, he.mpr hd]
    · have hee : e ≠ '*' := fun hc => hd (he.mp hc)
      rw [beq_eq_false_iff_ne.mpr (Ne.symm hee),
        beq_eq_false_iff_ne.mpr (Ne.symm hd)]
  have hsingle : ∀ (l : List Char),
      (['*'] : List Char).isPrefixOf (l.flatMap g) =
        (['*'] : List Char).isPrefixOf l := by
    intro l
    cases l with
    | nil => rfl
    | cons d tl =>
      rw [List.flatMap_cons]
      cases hgd : g d with
      | nil => exact absurd hgd (hne d)
      | cons e es =>
        have he : e = '*' ↔ d = '*' := by
          have h := hhead d
          rw [hgd] at h
          simpa using h
        show ('*' == e && List.isPrefixOf [] (es ++ tl.flatMap g)) =
          ('*' == d && List.isPrefixOf [] tl)
        simp only [List.isPrefixOf, Bool.and_true]
        exact hbeq d e he
  intro cs
  cases cs with
  | nil => rfl
  | cons c tl =>
    rw [List.flatMap_cons]
    by_cases hc : c = '*'
    · subst hc
      rw [hstar, List.singleton_append]
      show (('*' == '*') && (['*'] : List Char).isPrefixOf (tl.flatMap g)) =
        (('*' == '*') && (['*'] : List Char).isPrefixOf tl)
      rw [hsingle tl]
    · cases hgc : g c with
      | nil => exact absurd hgc (hne c)
      | cons e es =>
        have he : e = '*' ↔ c = '*' := by
          have h := hhead c
          rw [hgc] at h
          simpa using h
        have hee : e ≠ '*' := fun hc2 => hc (he.mp hc2)
        show ('*' == e && _) = ('*' == c && _)
        rw [beq_eq_false_iff_ne.mpr (Ne.symm hee),
          beq_eq_false_iff_ne.mpr (Ne.symm hc)]
        rfl

lemma boldWrapped_escape (cs : List Char) :
    boldWrapped (escapeLtGt cs) = boldWrapped cs := by
  rw [boldWrapped, boldWrapped, escapeLtGt_eq_flatMap]
  have h1 : (['*', '*'] : List Char).isPrefixOf (cs.flatMap escChar) =
      (['*', '*'] : List Char).isPrefixOf cs := by
    apply isPrefixOf_star2_flatMap
    · intro c
      by_cases h1 : c = '<'
      · simp [escChar, h1]
      · by_cases h2 : c = '>' <;> simp [escChar, h1, h2]
    · intro c
      by_cases h1 : c = '<'
      · simp [escChar, h1]
      · by_cases h2 : c = '>' <;> simp [escChar, h1, h2]
    · rfl
  have h2 : (['*', '*'] : List Char).isSuffixOf (cs.flatMap escChar) =
      (['*', '*'] : List Char).isSuffixOf cs := by
    show (['*', '*'] : List Char).reverse.isPrefixOf (cs.flatMap escChar).reverse =
      (['*', '*'] : List Char).reverse.isPrefixOf cs.reverse
    rw [List.reverse_flatMap]
    show (['*', '*'] : List Char).isPrefixOf
        (cs.reverse.flatMap (List.reverse ∘ escChar)) =
      (['*', '*'] : List Char).isPrefixOf cs.reverse
    apply isPrefixOf_star2_flatMap
    · intro c
      by_cases h1 : c = '<'
      · simp [Function.comp, escChar, h1]
      · by_cases h2 : c = '>' <;> simp [Function.comp, escChar, h1, h2]
    · intro c
      by_cases h1 : c = '<'
      · simp [Function.comp, escChar, h1]
      · by_cases h2 : c = '>' <;> simp [Function.comp, escChar, h1, h2]
    · rfl
  rw [h1, h2]

/-- C9 counterexample: `**a** **` has unbalanced delimiters (three `**`
occurrences), yet the encoder still emphasizes the balanced initial span,
producing `<strong>a</strong> **` rather than the literal escaped input. -/
theorem literal_rendering_counterexample :
    ¬ boldBalanced "**a** **".toList ∧
    parseToHtml "**a** **".toList ≠ escapeLtGt "**a** **".toList ∧
    parseToHtml "**a** **".toList = "<strong>a</strong> **".toList := by
  refine ⟨by decide, by decide, by decide⟩

/-- C9 (amended): the encoder is total, and an input with no pairable
delimiter — at most one `**` occurrence — that does not both begin and end
with `**` (excluding the degenerate residues `**`, `***`, `**x...` ending in
`**`) is rendered entirely literally, as the escaped input with no emphasis
markup.  Unbalanced inputs with two or more occurrences may still have their
balanced initial spans emphasized. -/
theorem literal_rendering_amended (text : List Char)
    (h1 : countMarkers text ≤ 1) (h2 : boldWrapped text = false) :
    parseToHtml text = escapeLtGt text := by
  rw [parseToHtml]
  have h1e : countMarkers (escapeLtGt text) ≤ 1 := by
    rw [countMarkers_escape]
    exact h1
  rw [parseBold_noneEq _ (jsScan_none_of_le_one _ h1e), mapPart,
    boldWrapped_escape, h2]
  simp

theorem literal_rendering_amended_witness :
    parseToHtml "a**b".toList = escapeLtGt "a**b".toList :=
  literal_rendering_amended "a**b".toList (by decide) (by decide)

/-- C10: the encoder escapes only `<` and `>` (the ampersand passes through
unescaped), and the string `&lt;` — balanced delimiters, no raw `<` or `>` —
is not recovered by the round trip: the decoder unconditionally rewrites the
entity spelling, `decode (encode "&lt;") = "<"`. -/
theorem entity_rewrite_breaks_roundtrip :
    parseToHtml "&".toList = "&".toList ∧
    parseToHtml "<".toList = "&lt;".toList ∧
    parseToHtml ">".toList = "&gt;".toList ∧
    boldBalanced "&lt;".toList ∧
    (∀ c ∈ "&lt;".toList, c ≠ '<' ∧ c ≠ '>') ∧
    parseToText (parseToHtml "&lt;".toList) = "<".toList ∧
    parseToText (parseToHtml "&lt;".toList) ≠ "&lt;".toList := by
  refine ⟨by decide, by decide, by decide, by decide, by decide, by decide, by decide⟩

/-! ## Theorems: repository client -/

/-- C5: when the save's `PUT` fails — a non-ok response or a thrown network
error — the visible saved-sermon list after the call equals the list before
the call was initiated (the optimistic append is rolled back) and an error
is surfaced. -/
theorem save_rollback (st : SaveState) (newSermon : SavedSermon)
    (outcome : PutOutcome) (h : outcome ≠ PutOutcome.ok) :
    (handleSaveSermon st newSermon outcome).savedSermons = st.savedSermons ∧
    (handleSaveSermon st newSermon outcome).saveError.isSome = true := by
  cases outcome with
  | ok => exact absurd rfl h
  | httpError status statusText => exact ⟨rfl, rfl⟩
  | netError msg => exact ⟨rfl, rfl⟩

theorem save_rollback_witness :
    (handleSaveSermon
      { savedSermons := [demoSermon], isSaving := false, saveError := none,
        saveSuccess := false }
      demoSermon (PutOutcome.httpError 500 "Internal Server Error")).savedSermons =
      [demoSermon] ∧
    (handleSaveSermon
      { savedSermons := [demoSermon], isSaving := false, saveError := none,
        saveSuccess := false }
      demoSermon (PutOutcome.httpError 500 "Internal Server Error")).saveError.isSome =
      true :=
  save_rollback
    { savedSermons := [demoSermon], isSaving := false, saveError := none,
      saveSuccess := false }
    demoSermon (PutOutcome.httpError 500 "Internal Server Error")
    (fun hc => PutOutcome.noConfusion hc)

/-- C6: fetching the saved-sermon collection — a 404 yields an empty list
and no error; any other non-success outcome (non-ok status or thrown
network error) yields an error and an empty list; a success response yields
the fetched record sequence. -/
theorem fetch_outcomes :
    fetchSavedSermons (FetchOutcome.httpError 404) =
      { savedSermons := [], loadSermonsError := none,
        isLoadingSermons := false } ∧
    (∀ status : Nat, status ≠ 404 →
      (fetchSavedSermons (FetchOutcome.httpError status)).savedSermons = [] ∧
      (fetchSavedSermons (FetchOutcome.httpError status)).loadSermonsError.isSome
        = true) ∧
    (∀ msg : String,
      (fetchSavedSermons (FetchOutcome.netError msg)).savedSermons = [] ∧
      (fetchSavedSermons (FetchOutcome.netError msg)).loadSermonsError.isSome
        = true) ∧
    (∀ records : List SavedSermon,
      fetchSavedSermons (FetchOutcome.success (some records)) =
        { savedSermons := records, loadSermonsError := none,
          isLoadingSermons := false }) := by
  refine ⟨rfl, ?_, ?_, ?_⟩
  · intro status h
    constructor
    · simp [fetchSavedSermons, if_neg h]
    · simp [fetchSavedSermons, if_neg h]
  · intro msg
    exact ⟨rfl, rfl⟩
  · intro records
    rfl

theorem fetch_outcomes_witness :
    (fetchSavedSermons (FetchOutcome.httpError 500)).savedSermons = [] ∧
    (fetchSavedSermons (FetchOutcome.httpError 500)).loadSermonsError.isSome
      = true :=
  fetch_outcomes.2.1 500 (by decide)

/-! ## Theorems: document edit isolation -/

lemma lookupField_setField_self :
    ∀ (fs : List (String × JValue)) (k : String) (v : JValue),
      lookupField (setField fs k v) k = some v := by
  intro fs
  induction fs with
  | nil => intro k v; simp [setField, lookupField]
  | cons kv rest ih =>
    intro k v
    obtain ⟨k', v'⟩ := kv
    rw [setField]
    by_cases h : k' = k
    · rw [if_pos h, lookupField, if_pos rfl]
    · rw [if_neg h, lookupField, if_neg h, ih]

lemma lookupField_setField_ne :
    ∀ (fs : List (String × JValue)) (k : String) (v : JValue) (k' : String),
      k' ≠ k → lookupField (setField fs k v) k' = lookupField fs k' := by
  intro fs
  induction fs with
  | nil =>
    intro k v k' h
    rw [setField, lookupField, lookupField, if_neg fun hc => h hc.symm]
    rfl
  | cons kv rest ih =>
    intro k v k' h
    obtain ⟨ka, va⟩ := kv
    rw [setField]
    by_cases ha : ka = k
    · rw [if_pos ha, lookupField, lookupField, ha,
        if_neg fun hc => h hc.symm, if_neg fun hc => h hc.symm]
    · rw [if_neg ha, lookupField, lookupField]
      by_cases hb : ka = k'
      · rw [if_pos hb, if_pos hb]
      · rw [if_neg hb, if_neg hb, ih k v k' h]

lemma getPath_str (s : String) (seg : PathSeg) (rest : List PathSeg) :
    getPath (JValue.str s) (seg :: rest) = none := by
  cases seg <;> rfl

lemma getPath_obj (fs : List (String × JValue)) (k : String)
    (rest : List PathSeg) :
    getPath (JValue.obj fs) (PathSeg.key k :: rest) =
      (lookupField fs k).bind fun child => getPath child rest := by
  rw [getPath]
  cases lookupField fs k <;> rfl

lemma getPath_arr (xs : List JValue) (i : Nat) (rest : List PathSeg) :
    getPath (JValue.arr xs) (PathSeg.idx i :: rest) =
      (xs[i]?).bind fun child => getPath child rest := by
  rw [getPath]
  cases xs[i]? <;> rfl

lemma getPath_obj_idx (fs : List (String × JValue)) (i : Nat)
    (rest : List PathSeg) :
    getPath (JValue.obj fs) (PathSeg.idx i :: rest) = none := rfl

lemma getPath_arr_key (xs : List JValue) (k : String) (rest : List PathSeg) :
    getPath (JValue.arr xs) (PathSeg.key k :: rest) = none := rfl

lemma setPath_obj_cons (fs : List (String × JValue)) (k : String)
    (seg : PathSeg) (rest : List PathSeg) (value : String) :
    setPath (JValue.obj fs) (PathSeg.key k :: seg :: rest) value =
      (lookupField fs k).bind fun child =>
        (setPath child (seg :: rest) value).map fun c =>
          JValue.obj (setField fs k c) := by
  rw [setPath]
  cases lookupField fs k <;> rfl

lemma setPath_arr_cons (xs : List JValue) (i : Nat) (seg : PathSeg)
    (rest : List PathSeg) (value : String) :
    setPath (JValue.arr xs) (PathSeg.idx i :: seg :: rest) value =
      (xs[i]?).bind fun child =>
        (setPath child (seg :: rest) value).map fun c =>
          JValue.arr (xs.set i c) := by
  rw [setPath]
  cases xs[i]? <;> rfl

/-- C7: the path-addressed edit of `handleSermonDataChange` replaces exactly
the addressed leaf.  For a document in which `path` resolves to a string
leaf, the edited document reads the new value at `path`, and every path that
is not a prefix of `path` — all sibling fields and all disjoint leaves —
reads exactly the same value as in the pre-edit document.  The input
document itself is untouched: the model is functional, mirroring the
source's deep copy (`JSON.parse(JSON.stringify(...))`) before mutation. -/
theorem edit_isolation (doc newDoc : JValue) (path : List PathSeg)
    (value s0 : String)
    (hleaf : getPath doc path = some (JValue.str s0))
    (hset : setPath doc path value = some newDoc) :
    getPath newDoc path = some (JValue.str value) ∧
    ∀ q : List PathSeg, ¬ q <+: path → getPath newDoc q = getPath doc q := by
  induction path generalizing doc newDoc with
  | nil => cases doc <;> exact Option.noConfusion hset
  | cons seg rest ih =>
    cases seg with
    | key k =>
      cases doc with
      | null => cases rest <;> exact Option.noConfusion hset
      | str s => cases rest <;> exact Option.noConfusion hset
      | num n => cases rest <;> exact Option.noConfusion hset
      | bool b => cases rest <;> exact Option.noConfusion hset
      | arr xs => cases rest <;> exact Option.noConfusion hset
      | obj fs =>
        rw [getPath_obj] at hleaf
        cases hl : lookupField fs k with
        | none => rw [hl] at hleaf; exact Option.noConfusion hleaf
        | some child =>
          rw [hl, Option.some_bind] at hleaf
          cases rest with
          | nil =>
            have hchild : child = JValue.str s0 := by
              rw [getPath] at hleaf
              injection hleaf
            obtain rfl : JValue.obj (setField fs k (JValue.str value)) = newDoc := by
              injection hset
            refine ⟨?_, ?_⟩
            · rw [getPath_obj, lookupField_setField_self, Option.some_bind]
              rfl
            · intro q hq
              cases q with
              | nil => exact absurd List.nil_prefix hq
              | cons qs qrest =>
                cases qs with
                | key k2 =>
                  by_cases hk : k2 = k
                  · subst hk
                    cases qrest with
                    | nil => exact absurd (List.prefix_refl _) hq
                    | cons q1 qr =>
                      rw [getPath_obj, getPath_obj, lookupField_setField_self,
                        hl, Option.some_bind, Option.some_bind, hchild,
                        getPath_str, getPath_str]
                  · rw [getPath_obj, getPath_obj,
                      lookupField_setField_ne fs k _ k2 hk]
                | idx j => rw [getPath_obj_idx, getPath_obj_idx]
          | cons seg2 rest2 =>
            rw [setPath_obj_cons, hl, Option.some_bind] at hset
            cases hs : setPath child (seg2 :: rest2) value with
            | none => rw [hs] at hset; exact Option.noConfusion hset
            | some c2 =>
              rw [hs, Option.map_some'] at hset
              obtain rfl : JValue.obj (setField fs k c2) = newDoc := by
                injection hset
              obtain ⟨ih1, ih2⟩ := ih child c2 hleaf hs
              refine ⟨?_, ?_⟩
              · rw [getPath_obj, lookupField_setField_self, Option.some_bind]
                exact ih1
              · intro q hq
                cases q with
                | nil => exact absurd List.nil_prefix hq
                | cons qs qrest =>
                  cases qs with
                  | key k2 =>
                    by_cases hk : k2 = k
                    · subst hk
                      have hq2 : ¬ qrest <+: seg2 :: rest2 := fun hp =>
                        hq (List.cons_prefix_cons.mpr ⟨rfl, hp⟩)
                      rw [getPath_obj, getPath_obj, lookupField_setField_self,
                        hl, Option.some_bind, Option.some_bind]
                      exact ih2 qrest hq2
                    · rw [getPath_obj, getPath_obj,
                        lookupField_setField_ne fs k _ k2 hk]
                  | idx j => rw [getPath_obj_idx, getPath_obj_idx]
    | idx i =>
      cases doc with
      | null => cases rest <;> exact Option.noConfusion hset
      | str s => cases rest <;> exact Option.noConfusion hset
      | num n => cases rest <;> exact Option.noConfusion hset
      | bool b => cases rest <;> exact Option.noConfusion hset
      | obj fs => cases rest <;> exact Option.noConfusion hset
      | arr xs =>
        rw [getPath_arr] at hleaf
        cases hx : xs[i]? with
        | none => rw [hx] at hleaf; exact Option.noConfusion hleaf
        | some child =>
          rw [hx, Option.some_bind] at hleaf
          obtain ⟨hi, -⟩ := List.getElem?_eq_some_iff.mp hx
          cases rest with
          | nil =>
            have hchild : child = JValue.str s0 := by
              rw [getPath] at hleaf
              injection hleaf
            rw [setPath, if_pos hi] at hset
            obtain rfl : JValue.arr (xs.set i (JValue.str value)) = newDoc := by
              injection hset
            refine ⟨?_, ?_⟩
            · rw [getPath_arr, List.getElem?_set_self hi, Option.some_bind]
              rfl
            · intro q hq
              cases q with
              | nil => exact absurd List.nil_prefix hq
              | cons qs qrest =>
                cases qs with
                | key k2 => rw [getPath_arr_key, getPath_arr_key]
                | idx j =>
                  by_cases hj : j = i
                  · subst hj
                    cases qrest with
                    | nil => exact absurd (List.prefix_refl _) hq
                    | cons q1 qr =>
                      rw [getPath_arr, getPath_arr,
                        List.getElem?_set_self hi, hx, Option.some_bind,
                        Option.some_bind, hchild, getPath_str, getPath_str]
                  · rw [getPath_arr, getPath_arr,
                      List.getElem?_set_ne fun hc => hj hc.symm]
          | cons seg2 rest2 =>
            rw [setPath_arr_cons, hx, Option.some_bind] at hset
            cases hs : setPath child (seg2 :: rest2) value with
            | none => rw [hs] at hset; exact Option.noConfusion hset
            | some c2 =>
              rw [hs, Option.map_some'] at hset
              obtain rfl : JValue.arr (xs.set i c2) = newDoc := by
                injection hset
              obtain ⟨ih1, ih2⟩ := ih child c2 hleaf hs
              refine ⟨?_, ?_⟩
              · rw [getPath_arr, List.getElem?_set_self hi, Option.some_bind]
                exact ih1
              · intro q hq
                cases q with
                | nil => exact absurd List.nil_prefix hq
                | cons qs qrest =>
                  cases qs with
                  | key k2 => rw [getPath_arr_key, getPath_arr_key]
                  | idx j =>
                    by_cases hj : j = i
                    · subst hj
                      have hq2 : ¬ qrest <+: seg2 :: rest2 := fun hp =>
                        hq (List.cons_prefix_cons.mpr ⟨rfl, hp⟩)
                      rw [getPath_arr, getPath_arr,
                        List.getElem?_set_self hi, hx, Option.some_bind,
                        Option.some_bind]
                      exact ih2 qrest hq2
                    · rw [getPath_arr, getPath_arr,
                        List.getElem?_set_ne fun hc => hj hc.symm]

theorem edit_isolation_witness :
    getPath demoDocEdited
      [PathSeg.key "development", PathSeg.idx 1, PathSeg.key "argument"] =
      some (JValue.str "novo") ∧
    ∀ q : List PathSeg,
      ¬ q <+: [PathSeg.key "development", PathSeg.idx 1, PathSeg.key "argument"] →
      getPath demoDocEdited q = getPath demoDoc q :=
  edit_isolation demoDoc demoDocEdited
    [PathSeg.key "development", PathSeg.idx 1, PathSeg.key "argument"]
    "novo" "a1" (by rfl) (by rfl)
